import Mathlib

/-!
Verification of the Arete dependency-graph core (graph resolver and queue
builder) against its natural-language specification.

The Python sources embedded here are
`src/arete/application/graph_resolver.py` and
`src/arete/application/queue_builder.py`.  The domain data structure
`arete.domain.graph.DependencyGraph` is not part of the provided sources
(only its callers and tests are), so it is modelled from the specification
(spec §3, §4.1).

Modelling conventions:
* Python strings are `String`, Python ints are `Int`/`Nat`, Python floats
  are `ℚ` (the code only compares them; NaN inputs are out of scope).
* Python dicts are insertion-ordered association lists.
* Python sets are represented by membership lists; where the code
  *iterates* a set, the iteration order is an additional parameter of the
  embedding, constrained only to be some enumeration of the set
  (`IsPySetOrder`), because CPython set iteration order is hash-dependent.
* `graphlib.TopologicalSorter.static_order` is modelled by Kahn peeling
  (`peel`): it returns a full order when the graph is acyclic and otherwise
  reports one cycle, exactly the documented contract of `graphlib`
  (`CycleError` is raised iff a cycle exists, and the exception carries a
  list of nodes in which each node is adjacent to the next and the first
  and last entries coincide).
-/

namespace Arete

/-- Modelled from the spec: `CardNode` (spec §3): id, display title,
file path and line number of a card. -/
structure CardNode where
  id : String
  title : String
  file_path : String
  line_number : Nat
deriving DecidableEq, Repr

/-- Modelled from the spec: `DependencyGraph` (spec §3, §4.1), which is not
part of the provided sources.  `nodes` is the insertion-ordered mapping
id → CardNode; `requiresAdj` maps a card id to the ids it requires
(edge-insertion order, deduplicated); `dependentsAdj` is the reverse index
of `requiresAdj`; `relatedAdj` stores related edges keyed by source id. -/
structure DependencyGraph where
  nodes : List (String × CardNode)
  requiresAdj : List (String × List String)
  dependentsAdj : List (String × List String)
  relatedAdj : List (String × List String)
deriving DecidableEq, Repr

namespace DependencyGraph

/-- The empty graph. -/
def empty : DependencyGraph := ⟨[], [], [], []⟩

/-- Keys of the node map: the set `graph.nodes` that the Python code tests
membership in. -/
def nodeIds (g : DependencyGraph) : List String := g.nodes.map Prod.fst

/-- Association-list lookup for the node map (Python `graph.nodes[k]`). -/
def lookupNode : List (String × CardNode) → String → Option CardNode
  | [], _ => none
  | (k, n) :: rest, x => if x = k then some n else lookupNode rest x

/-- Find the `CardNode` stored under an id. -/
def findNode (g : DependencyGraph) (x : String) : Option CardNode :=
  lookupNode g.nodes x

/-- Association-list lookup returning `[]` for a missing key (Python
`adjacency.get(k, [])`). -/
def adjGet : List (String × List String) → String → List String
  | [], _ => []
  | (k, v) :: rest, x => if x = k then v else adjGet rest x

/-- Append a value to the list stored under a key, creating the key if
needed and skipping the append when the value is already present
(spec §4.1: edges are idempotent, edge-insertion order, deduplicated). -/
def adjAppend : List (String × List String) → String → String → List (String × List String)
  | [], k, v => [(k, [v])]
  | (k', vs) :: rest, k, v =>
    if k = k' then (k', if v ∈ vs then vs else vs ++ [v]) :: rest
    else (k', vs) :: adjAppend rest k v

/-- Modelled from the spec: `add_node` (spec §4.1), upsert by id with
last-write-wins. -/
def add_node (g : DependencyGraph) (n : CardNode) : DependencyGraph :=
  if (g.nodes.map Prod.fst).contains n.id then
    { g with nodes := g.nodes.map (fun p => if p.1 = n.id then (p.1, n) else p) }
  else
    { g with nodes := g.nodes ++ [(n.id, n)] }

/-- Modelled from the spec: `add_requires(dependentId, prerequisiteId)`
(spec §4.1): store the directed requires edge and its reverse index; the
target need not exist as a node. -/
def add_requires (g : DependencyGraph) (dependent prerequisite : String) : DependencyGraph :=
  { g with
    requiresAdj := adjAppend g.requiresAdj dependent prerequisite
    dependentsAdj := adjAppend g.dependentsAdj prerequisite dependent }

/-- Modelled from the spec: `add_related` (spec §4.1). -/
def add_related (g : DependencyGraph) (a b : String) : DependencyGraph :=
  { g with relatedAdj := adjAppend g.relatedAdj a b }

/-- Modelled from the spec: `get_prerequisites` (spec §4.1): ids the card
requires, in edge-insertion order, deduplicated. -/
def get_prerequisites (g : DependencyGraph) (x : String) : List String :=
  adjGet g.requiresAdj x

/-- Modelled from the spec: `get_dependents` (spec §4.1): reverse index of
requires. -/
def get_dependents (g : DependencyGraph) (x : String) : List String :=
  adjGet g.dependentsAdj x

/-- Modelled from the spec: `get_related` (spec §4.1). -/
def get_related (g : DependencyGraph) (x : String) : List String :=
  adjGet g.relatedAdj x

/-- Well-formedness of the node map, automatic for graphs built through
`add_node` (the Python dict is keyed by `node.id`): every stored node is
keyed by its own id. -/
def WF (g : DependencyGraph) : Prop :=
  ∀ p ∈ g.nodes, p.2.id = p.1

instance (g : DependencyGraph) : Decidable g.WF :=
  inferInstanceAs (Decidable (∀ p ∈ g.nodes, p.2.id = p.1))

end DependencyGraph

open DependencyGraph

/-- Convenience constructor for concrete graphs in witnesses: add plain
nodes for `ids`, then the requires edges. -/
def mkGraph (ids : List String) (reqEdges : List (String × String)) : DependencyGraph :=
  reqEdges.foldl (fun g e => g.add_requires e.1 e.2)
    (ids.foldl (fun g i => g.add_node ⟨i, i, "f.md", 1⟩) DependencyGraph.empty)

/-- Prerequisite ids of `x` that exist as graph nodes: the list
`[p for p in graph.get_prerequisites(x) if p in graph.nodes]` used
throughout the resolver. -/
def validPrereqs (g : DependencyGraph) (x : String) : List String :=
  (g.get_prerequisites x).filter (fun p => p ∈ g.nodeIds)

/-! ## Queue builder: weak-prerequisite classification
(`src/arete/application/queue_builder.py`) -/

/-- Structure `WeakPrereqCriteria`: independently optional thresholds
(queue_builder.py lines 20-32). -/
structure WeakPrereqCriteria where
  min_stability : Option ℚ := none
  max_lapses : Option ℤ := none
  min_reviews : Option ℤ := none
  max_interval : Option ℤ := none
deriving DecidableEq, Repr

/-- Per-card statistics record (spec §6:
`{stability: float?, lapses: int, reps: int, interval: int}`); a `none`
field models a key absent from the Python stats dict. -/
structure CardStats where
  stability : Option ℚ := none
  lapses : Option ℤ := none
  reps : Option ℤ := none
  interval : Option ℤ := none
deriving DecidableEq, Repr

/-- The `card_stats` argument: an optional dict id → stats. -/
abbrev CardStatsMap := Option (List (String × CardStats))

/-- Association-list lookup for the stats dict. -/
def statsLookup : List (String × CardStats) → String → Option CardStats
  | [], _ => none
  | (k, v) :: rest, x => if x = k then some v else statsLookup rest x

/-- Translation of `_is_weak_prereq` (queue_builder.py lines 153-192):
sequential early-return threshold checks; missing criteria or missing
stats default to weak; `lapses`/`reps`/`interval` default to `0` via
`stats.get(key, 0)`; the stability check is skipped when the stability
value is `None`. -/
def _is_weak_prereq (card_id : String) (criteria : Option WeakPrereqCriteria)
    (card_stats : CardStatsMap) : Bool :=
  match criteria with
  | none => true
  | some crit =>
    match card_stats with
    | none => true
    | some statsMap =>
      match statsLookup statsMap card_id with
      | none => true
      | some stats =>
        if crit.min_stability.elim false
            (fun m => stats.stability.elim false (fun s => decide (s < m))) then true
        else if crit.max_lapses.elim false (fun m => decide (stats.lapses.getD 0 > m)) then true
        else if crit.min_reviews.elim false (fun r => decide (stats.reps.getD 0 < r)) then true
        else if crit.max_interval.elim false (fun i => decide (stats.interval.getD 0 < i)) then true
        else false

/-- Spec-side definition, following the words of the claim and spec §4.6
step 6: a candidate with stats triggers when any configured (non-null)
threshold fires — stability below `minStability` (only comparable when a
stability value is present), lapses above `maxLapses`, review count below
`minReviews`, or interval below `maxInterval`. -/
def specWeakTrigger (c : WeakPrereqCriteria) (st : CardStats) : Bool :=
  (match c.min_stability, st.stability with
   | some m, some s => decide (s < m)
   | _, _ => false)
  || (match c.max_lapses with
      | some m => decide (st.lapses.getD 0 > m)
      | none => false)
  || (match c.min_reviews with
      | some r => decide (st.reps.getD 0 < r)
      | none => false)
  || (match c.max_interval with
      | some i => decide (st.interval.getD 0 < i)
      | none => false)

/-- Spec-side classification, following the words of the claim: no
criteria → weak; criteria but no stats entry → weak; otherwise weak iff
some configured threshold triggers. -/
def specWeakClassification (card_id : String) (criteria : Option WeakPrereqCriteria)
    (card_stats : CardStatsMap) : Bool :=
  match criteria, card_stats with
  | none, _ => true
  | some _, none => true
  | some c, some m =>
    match statsLookup m card_id with
    | none => true
    | some st => specWeakTrigger c st

/-! ## Model of `graphlib.TopologicalSorter.static_order`

The Python resolver relies on the stdlib contract: `static_order()` yields
every added node, predecessors before dependents, and raises `CycleError`
iff the predecessor graph has a cycle; the exception carries a list of
nodes in which consecutive nodes are joined by edges and the first and
last entries coincide.  We realise this contract with Kahn peeling plus a
predecessor walk for cycle extraction, and prove it below. -/

/-- A cycle value as carried by `CycleError`: at least two entries, first
and last coincide, and consecutive entries `(a, b)` satisfy
`b ∈ preds a`. -/
def CycleFor (preds : String → List String) (c : List String) : Prop :=
  2 ≤ c.length ∧ c.head? = c.getLast? ∧ List.Chain' (fun a b => b ∈ preds a) c

/-- Executable check for the chain condition of `CycleFor`. -/
def chainB (preds : String → List String) : List String → Bool
  | [] => true
  | [_] => true
  | a :: b :: rest => decide (b ∈ preds a) && chainB preds (b :: rest)

instance (preds : String → List String) (c : List String) : Decidable (CycleFor preds c) :=
  decidable_of_iff (2 ≤ c.length ∧ c.head? = c.getLast? ∧ chainB preds c = true) (by
    have hch : ∀ l : List String,
        chainB preds l = true ↔ List.Chain' (fun a b => b ∈ preds a) l := by
      intro l
      induction l with
      | nil => simp [chainB]
      | cons a rest ih =>
        cases rest with
        | nil => simp [chainB]
        | cons b rest2 =>
          rw [chainB, List.chain'_cons, Bool.and_eq_true, decide_eq_true_eq, ih]
    rw [hch]
    exact Iff.rfl)

/-- Predecessor walk used to extract a cycle from a stuck remainder `R`
(every node of `R` keeps a predecessor inside `R`): repeatedly step to a
predecessor inside `R` until a node repeats, then cut the loop out of the
walk.  `fuel` only serves termination; `R.length + 1` steps always
suffice. -/
def predWalk (preds : String → List String) (R : List String) :
    Nat → String → List String → List String
  | 0, _, _ => []
  | fuel + 1, x, path =>
    match (preds x).find? (fun p => R.contains p) with
    | none => []
    | some y =>
      if y ∈ path then path.drop (path.indexOf y) ++ [y]
      else predWalk preds R fuel y (path ++ [y])

/-- Extract one cycle from a stuck remainder. -/
def findCycle (preds : String → List String) (R : List String) : List String :=
  match R with
  | [] => []
  | x :: _ => predWalk preds R (R.length + 1) x [x]

/-- Kahn peeling: repeatedly output the nodes of `R` with no remaining
predecessor.  Ends with the complete order, or with the cycle found in the
stuck remainder.  `fuel` only serves termination; `R.length + 1` rounds
always suffice. -/
def peel (preds : String → List String) :
    Nat → List String → List String → Except (List String) (List String)
  | 0, _, _ => .error []
  | fuel + 1, out, R =>
    let ready := R.filter (fun n => (preds n).all (fun p => !(R.contains p)))
    if ready.isEmpty then
      if R.isEmpty then .ok out else .error (findCycle preds R)
    else peel preds fuel (out ++ ready) (R.filter (fun n => !(ready.contains n)))

/-- Model of `TopologicalSorter(...).static_order()` over the nodes listed
in `nodes` with predecessor function `preds`: the full order on success,
or the detected cycle. -/
def staticOrder (preds : String → List String) (nodes : List String) :
    Except (List String) (List String) :=
  peel preds (nodes.length + 1) [] nodes

/-! ## Graph resolver (`src/arete/application/graph_resolver.py`) -/

/-- Translation of `detect_cycles` (graph_resolver.py lines 154-178): add
every graph node with its prerequisites filtered to existing nodes; `[]`
when the full order succeeds, otherwise the single cycle carried by
`CycleError`.  (The defensive `return [[]]` branch of the Python code is
unreachable: `graphlib` always stores the cycle list in `e.args[1]`.) -/
def detect_cycles (g : DependencyGraph) : List (List String) :=
  match staticOrder (fun n => validPrereqs g n) g.nodeIds with
  | .ok _ => []
  | .error c => [c]

/-- The generator `(cid for cid in card_ids if cid in graph.nodes)` whose
elements form the Python set `valid_ids` in `topological_sort`. -/
def validIdsList (g : DependencyGraph) (card_ids : List String) : List String :=
  card_ids.filter (fun c => c ∈ g.nodeIds)

/-- Admissible iteration orders of a CPython set holding the elements of
`elems`: some duplicate-free enumeration of those elements.  CPython set
iteration order is hash-seed dependent, so the embedding quantifies over
it. -/
def IsPySetOrder (o : List String) (elems : List String) : Prop :=
  List.Perm o elems.dedup

instance (o elems : List String) : Decidable (IsPySetOrder o elems) :=
  inferInstanceAs (Decidable (List.Perm o elems.dedup))

/-- Translation of `topological_sort` (graph_resolver.py lines 218-253).
`order` is the iteration order of the Python set `valid_ids` (see
`IsPySetOrder`); the sorter receives each valid id with its prerequisites
restricted to the valid set, and on `CycleError` the code falls back to
`list(valid_ids)` — i.e. the set iteration order — flagging a warning
(second component). -/
def topological_sortR (g : DependencyGraph) (card_ids : List String)
    (order : List String) : List String × Bool :=
  match staticOrder (fun n => (g.get_prerequisites n).filter (fun p => p ∈ order)) order with
  | .ok l => (l, false)
  | .error _ => (order, true)

/-- The list returned by `topological_sort`. -/
def topological_sort (g : DependencyGraph) (card_ids : List String)
    (order : List String) : List String :=
  (topological_sortR g card_ids order).1

/-- A cycle of the requires-subgraph restricted to existing nodes:
consecutive entries `(a, b)` satisfy `b ∈ validPrereqs g a` (that is,
`a` requires `b`), and the first and last entries coincide. -/
def IsRequiresCycleList (g : DependencyGraph) (c : List String) : Prop :=
  CycleFor (fun n => validPrereqs g n) c

instance (g : DependencyGraph) (c : List String) : Decidable (IsRequiresCycleList g c) :=
  inferInstanceAs (Decidable (CycleFor (fun n => validPrereqs g n) c))

/-! ## Queue builder (`src/arete/application/queue_builder.py`) -/

/-- Translation of `_collect_prereqs` (queue_builder.py lines 127-149):
recursively collect prerequisites up to `depth` hops, threading the shared
mutable `visited` set; returns the collected prerequisite set (as an
insertion list — downstream iteration order is quantified separately) and
the updated visited set. -/
def collectPrereqs (g : DependencyGraph) : Nat → String → List String → List String × List String
  | 0, _, visited => ([], visited)
  | depth + 1, card_id, visited =>
    if card_id ∈ visited then ([], visited)
    else
      let visited := visited ++ [card_id]
      (g.get_prerequisites card_id).foldl
        (fun acc p =>
          let withP := if p ∈ acc.1 then acc.1 else acc.1 ++ [p]
          let rec_result := collectPrereqs g depth p acc.2
          (rec_result.1.foldl (fun l q => if q ∈ l then l else l ++ [q]) withP, rec_result.2))
        ([], visited)

/-- The prerequisite-collection loop of `build_dependency_queue`
(queue_builder.py lines 79-89): for each due id, collect prerequisites
with a fresh visited set, and split them into the existing-node pool
(first component, a set) and the deduplicated first-seen `missing_prereqs`
list (second component). -/
def collectAllPrereqs (g : DependencyGraph) (due_card_ids : List String) (depth : Nat) :
    List String × List String :=
  due_card_ids.foldl
    (fun acc due_id =>
      let prereqs := (collectPrereqs g depth due_id []).1
      prereqs.foldl
        (fun acc2 p =>
          if p ∈ g.nodeIds then
            (if p ∈ acc2.1 then acc2.1 else acc2.1 ++ [p], acc2.2)
          else
            (acc2.1, if p ∈ acc2.2 then acc2.2 else acc2.2 ++ [p]))
        acc)
    ([], [])

/-- The candidate pool after `all_prereqs -= set(due_card_ids)`
(queue_builder.py lines 91-92): membership list of the set the
weak/strong classification loop iterates. -/
def candidatePool (g : DependencyGraph) (due_card_ids : List String) (depth : Nat) :
    List String :=
  (collectAllPrereqs g due_card_ids depth).1.filter (fun p => p ∉ due_card_ids)

/-- The weak/strong partition loop (queue_builder.py lines 94-102):
iterating the candidate set in `prereqOrder`, append each candidate to
`weak_prereqs` or `strong_prereqs` according to `_is_weak_prereq`. -/
def weakStrongLists (criteria : Option WeakPrereqCriteria) (card_stats : CardStatsMap)
    (prereqOrder : List String) : List String × List String :=
  (prereqOrder.filter (fun p => _is_weak_prereq p criteria card_stats),
   prereqOrder.filter (fun p => !(_is_weak_prereq p criteria card_stats)))

/-- The sort key `card_stats.get(x, {}).get("stability", float("inf"))`
(queue_builder.py line 108): `none` plays the role of `float("inf")`. -/
def statKey (m : List (String × CardStats)) (x : String) : Option ℚ :=
  (statsLookup m x).bind CardStats.stability

/-- Order on sort keys with `none` as plus infinity. -/
def oleB : Option ℚ → Option ℚ → Bool
  | _, none => true
  | none, some _ => false
  | some a, some b => decide (a ≤ b)

/-- The sorting relation used for the weakness sort. -/
def weakSortRel (m : List (String × CardStats)) (a b : String) : Prop :=
  oleB (statKey m a) (statKey m b) = true

instance (m : List (String × CardStats)) : DecidableRel (weakSortRel m) := fun a b =>
  inferInstanceAs (Decidable (oleB (statKey m a) (statKey m b) = true))

/-- Python truthiness of the optional stats dict (`if card_stats:`). -/
def pyTruthy (card_stats : CardStatsMap) : Bool :=
  match card_stats with
  | none => false
  | some m => !m.isEmpty

/-- The capping step (queue_builder.py lines 104-111): when the weak list
exceeds `max_nodes`, sort it by ascending stability (a stable sort,
modelled by insertion sort, extensionally equal to Python stable
`list.sort`) — but only when `card_stats` is truthy — then truncate to
`max_nodes`. -/
def capWeakPrereqs (max_nodes : Nat) (card_stats : CardStatsMap)
    (weak : List String) : List String :=
  if max_nodes < weak.length then
    (if pyTruthy card_stats then
      weak.insertionSort (weakSortRel (card_stats.getD []))
    else weak).take max_nodes
  else weak

/-- Structure `QueueBuildResult` (queue_builder.py lines 35-44). -/
structure QueueBuildResult where
  prereq_queue : List String
  main_queue : List String
  skipped_strong : List String
  missing_prereqs : List String
  cycles : List (List String)
deriving DecidableEq, Repr

/-- The message of the `NotImplementedError` raised for
`include_related=True`. -/
def notImplementedMsg : String :=
  "Related card boost not yet implemented. Set include_related=False to use requires-only mode."

/-- The body of `build_dependency_queue` past the `include_related` guard
(queue_builder.py lines 75-126).  `g` stands for the graph built from the
vault (`build_graph` is file I/O and is therefore a parameter);
`prereqOrder`, `ord1` and `ord2` are the iteration orders of the Python
sets `all_prereqs` (after removing the due ids) and of the two `valid_ids`
sets inside `topological_sort`. -/
def buildQueueCore (g : DependencyGraph) (due_card_ids : List String)
    (depth max_nodes : Nat) (weak_criteria : Option WeakPrereqCriteria)
    (card_stats : CardStatsMap) (prereqOrder ord1 ord2 : List String) : QueueBuildResult :=
  let collected := collectAllPrereqs g due_card_ids depth
  let ws := weakStrongLists weak_criteria card_stats prereqOrder
  let weak_prereqs := capWeakPrereqs max_nodes card_stats ws.1
  { prereq_queue := topological_sort g weak_prereqs ord1
    main_queue := topological_sort g due_card_ids ord2
    skipped_strong := ws.2
    missing_prereqs := collected.2
    cycles := detect_cycles g }

/-- Translation of `build_dependency_queue` (queue_builder.py lines
47-126): fail synchronously on `include_related=True`, otherwise build the
queues. -/
def build_dependency_queue (g : DependencyGraph) (due_card_ids : List String)
    (depth max_nodes : Nat) (include_related : Bool)
    (weak_criteria : Option WeakPrereqCriteria) (card_stats : CardStatsMap)
    (prereqOrder ord1 ord2 : List String) : Except String QueueBuildResult :=
  if include_related then .error notImplementedMsg
  else .ok (buildQueueCore g due_card_ids depth max_nodes weak_criteria card_stats
    prereqOrder ord1 ord2)

/-! ## Local subgraph extraction and card-scoped cycle detection
(`src/arete/application/graph_resolver.py`) -/

/-- Translation of the nested `walk_prereqs` / `walk_dependents` closures
of `get_local_graph` (graph_resolver.py lines 117-134), parameterised by
the neighbour accessor (the two closures are textually identical up to
it).  `fuel` encodes `depth + 1 - current_depth`, so the Python guard
`current_depth > depth` is `fuel = 0`; the `max_nodes` check happens only
at call entry (the soft cap), and the loop adds every neighbour that is a
graph node and not yet accumulated, recursing depth-first. -/
def walkAcc (g : DependencyGraph) (nbrs : String → List String) (max_nodes : Nat) :
    Nat → String → List String → List String
  | 0, _, acc => acc
  | fuel + 1, cid, acc =>
    if max_nodes ≤ acc.length then acc
    else
      (nbrs cid).foldl
        (fun acc2 nid =>
          if nid ∉ acc2 ∧ nid ∈ g.nodeIds then
            walkAcc g nbrs max_nodes fuel nid (acc2 ++ [nid])
          else acc2)
        acc

/-- Mutable state of the `detect_cycles_for_card` DFS: the `visited` and
`rec_stack` sets, the current `path`, and the collected cycles. -/
structure DfsSt where
  visited : List String
  rec_stack : List String
  path : List String
  cycles : List (List String)
deriving DecidableEq, Repr

/-- Translation of the nested `dfs` of `detect_cycles_for_card`
(graph_resolver.py lines 181-210): mark the node visited, push it on the
recursion stack and path, scan its prerequisites (skipping non-nodes,
recursing into unvisited ones, and extracting `path[path.index(p):]` as a
cycle when `p` is on the recursion stack and the cycle holds the queried
card and is new), then pop.  `fuel` only serves termination: every
recursive call strictly grows `visited` with a graph node, so
`|nodes| + 1` levels always suffice. -/
def dfsCard (g : DependencyGraph) (card_id : String) : Nat → String → DfsSt → DfsSt
  | 0, _, st => st
  | fuel + 1, cid, st0 =>
    let st1 : DfsSt :=
      { st0 with
        visited := st0.visited ++ [cid]
        rec_stack := st0.rec_stack ++ [cid]
        path := st0.path ++ [cid] }
    let st2 := (g.get_prerequisites cid).foldl
      (fun st p =>
        if p ∉ g.nodeIds then st
        else if p ∉ st.visited then dfsCard g card_id fuel p st
        else if p ∈ st.rec_stack then
          let cycle := st.path.drop (st.path.indexOf p)
          if card_id ∈ cycle ∧ cycle ∉ st.cycles then
            { st with cycles := st.cycles ++ [cycle] }
          else st
        else st)
      st1
    { st2 with path := st2.path.dropLast, rec_stack := st2.rec_stack.erase cid }

/-- Translation of `detect_cycles_for_card` (graph_resolver.py lines
181-215): run the DFS from the card when it exists, else return `[]`. -/
def detect_cycles_for_card (g : DependencyGraph) (card_id : String) : List (List String) :=
  if card_id ∈ g.nodeIds then
    (dfsCard g card_id (g.nodeIds.length + 1) card_id ⟨[], [], [], []⟩).cycles
  else []

/-- Executable duplicate-freeness check. -/
def nodupB : List String → Bool
  | [] => true
  | a :: rest => !(rest.contains a) && nodupB rest

/-- Executable check of the wrap-around edge of a cycle in the
`detect_cycles_for_card` representation: the head is a valid prerequisite
of the last entry. -/
def wrapEdgeB (g : DependencyGraph) (c : List String) : Bool :=
  match c.head?, c.getLast? with
  | some h, some l' => decide (h ∈ validPrereqs g l')
  | _, _ => false

/-- A true cycle through `card_id` in the representation used by
`detect_cycles_for_card`: a nonempty duplicate-free list where each entry
requires the next (within existing nodes), the last entry requires the
first again, and the queried card is on it. -/
def GoodCycle (g : DependencyGraph) (card_id : String) (c : List String) : Prop :=
  c ≠ [] ∧ c.Nodup ∧ List.Chain' (fun a b => b ∈ validPrereqs g a) c
    ∧ wrapEdgeB g c = true ∧ card_id ∈ c

instance (g : DependencyGraph) (card_id : String) (c : List String) :
    Decidable (GoodCycle g card_id c) :=
  decidable_of_iff
    (c ≠ [] ∧ nodupB c = true ∧ chainB (fun n => validPrereqs g n) c = true
      ∧ wrapEdgeB g c = true ∧ card_id ∈ c) (by
    have hcont : ∀ (l : List String) (a : String), l.contains a = true ↔ a ∈ l := by
      intro l a
      constructor
      · intro h
        simpa using h
      · intro h
        simpa using List.elem_eq_true_of_mem h
    have hnd : ∀ l : List String, nodupB l = true ↔ l.Nodup := by
      intro l
      induction l with
      | nil => simp [nodupB]
      | cons a rest ih =>
        rw [nodupB, Bool.and_eq_true, List.nodup_cons, ih, Bool.not_eq_true',
          ← Bool.not_eq_true, hcont]
    have hch : ∀ l : List String,
        chainB (fun n => validPrereqs g n) l = true
          ↔ List.Chain' (fun a b => b ∈ validPrereqs g a) l := by
      intro l
      induction l with
      | nil => simp [chainB]
      | cons a rest ih =>
        cases rest with
        | nil => simp [chainB]
        | cons b rest2 =>
          rw [chainB, List.chain'_cons, Bool.and_eq_true, decide_eq_true_eq, ih]
    rw [hnd, hch]
    exact Iff.rfl)

/-- Neighbour ids of `x` along an accessor that exist as graph nodes: the
direct prerequisites (or dependents) of `x` retained by the local-graph
walks. -/
def validDeps (g : DependencyGraph) (nbrs : String → List String) (x : String) : List String :=
  (nbrs x).filter (fun p => p ∈ g.nodeIds)

/-- Invariant of the `detect_cycles_for_card` DFS state: the recursion
stack mirrors the path, the path is a duplicate-free requires-chain of
visited existing nodes, and the collected cycles are distinct true cycles
through the queried card. -/
def DfsInv (g : DependencyGraph) (card_id : String) (st : DfsSt) : Prop :=
  st.rec_stack = st.path
    ∧ st.path.Nodup
    ∧ (∀ x ∈ st.path, x ∈ st.visited)
    ∧ List.Chain' (fun a b => b ∈ validPrereqs g a) st.path
    ∧ st.cycles.Nodup
    ∧ (∀ c ∈ st.cycles, GoodCycle g card_id c)

/-- Structure `LocalGraphResult` (spec §3): centre node, prerequisite, dependent and
related node lists, and the cycles touching the centre. -/
structure LocalGraphResult where
  center : CardNode
  prerequisites : List CardNode
  dependents : List CardNode
  related : List CardNode
  cycles : List (List String)
deriving DecidableEq, Repr

/-- Translation of `get_local_graph` (graph_resolver.py lines 88-151):
`none` for an unknown centre; otherwise walk prerequisites and dependents
bounded by `depth` and the soft `max_nodes` cap, take direct related ids
that exist, and attach card-scoped cycles.  The id lists are resolved to
`CardNode`s through the node map (`graph.nodes[pid]`, total on walk
results since walks only accumulate existing nodes). -/
def get_local_graph (g : DependencyGraph) (card_id : String)
    (depth max_nodes : Nat) : Option LocalGraphResult :=
  if card_id ∈ g.nodeIds then
    match g.findNode card_id with
    | none => none
    | some center =>
      some
        { center := center
          prerequisites :=
            (walkAcc g (fun c => g.get_prerequisites c) max_nodes depth card_id []).filterMap
              g.findNode
          dependents :=
            (walkAcc g (fun c => g.get_dependents c) max_nodes depth card_id []).filterMap
              g.findNode
          related :=
            ((g.get_related card_id).filter (fun p => p ∈ g.nodeIds)).filterMap g.findNode
          cycles := detect_cycles_for_card g card_id }
  else none

/-- The stability sort key as a function of the optional stats map: with
no stats every key is missing (`none`, i.e. plus infinity). -/
def fullStatKey (card_stats : CardStatsMap) (x : String) : Option ℚ :=
  match card_stats with
  | none => none
  | some m => statKey m x

/-- Ascending-stability comparison used to state the C6 sortedness
property. -/
def weakKeyLE (card_stats : CardStatsMap) (a b : String) : Prop :=
  oleB (fullStatKey card_stats a) (fullStatKey card_stats b) = true

/-! ## Concrete graphs and stats used by witnesses and counterexamples -/

/-- Two co-requisite cards, used as the concrete cyclic graph in
witnesses. -/
def gAB : DependencyGraph := mkGraph ["a", "b"] [("a", "b"), ("b", "a")]

/-- Acyclic two-chain graph (`a` requires `b`, `b` requires `c`), used in
witnesses. -/
def gChain : DependencyGraph := mkGraph ["a", "b", "c"] [("a", "b"), ("b", "c")]

/-- Concrete graph for the C6 witness: `m` requires `p` and `q`. -/
def gMPQ : DependencyGraph := mkGraph ["m", "p", "q"] [("m", "p"), ("m", "q")]

/-- Concrete stats for the C6 witness: `p` weaker than `q`. -/
def statsPQ : List (String × CardStats) :=
  [("p", { stability := some 5 }), ("q", { stability := some 50 })]

/-- Concrete graph refuting the completeness half of C4: `a` requires `b`
and `c`, `b` and `c` both require `d`, and `d` requires `a` — giving two
distinct cycles through `a`, of which the DFS reports only the first. -/
def gTwoCycles : DependencyGraph :=
  mkGraph ["a", "b", "c", "d"]
    [("a", "b"), ("a", "c"), ("b", "d"), ("c", "d"), ("d", "a")]

/-- Concrete graph refuting C7 as stated: `x` requires `q` and `p`, `q`
requires `p`, `p` requires `w`. -/
def gRevisit : DependencyGraph :=
  mkGraph ["x", "q", "p", "w"] [("x", "q"), ("x", "p"), ("q", "p"), ("p", "w")]

instance (m : List (String × CardStats)) : IsTotal String (weakSortRel m) where
  total a b := by
    unfold weakSortRel
    rcases statKey m a with _ | x <;> rcases statKey m b with _ | y
    · left; rfl
    · right; rfl
    · left; rfl
    · rcases le_total x y with h | h
      · left; unfold oleB; exact decide_eq_true h
      · right; unfold oleB; exact decide_eq_true h

instance (m : List (String × CardStats)) : IsTrans String (weakSortRel m) where
  trans a b c hab hbc := by
    unfold weakSortRel at hab hbc ⊢
    revert hab hbc
    rcases statKey m a with _ | x <;> rcases statKey m b with _ | y <;>
      rcases statKey m c with _ | z <;> intro hab hbc
    · rfl
    · simp [oleB] at hbc
    · rfl
    · simp [oleB] at hab
    · rfl
    · simp [oleB] at hbc
    · rfl
    · simp only [oleB, decide_eq_true_eq] at hab hbc ⊢
      exact le_trans hab hbc

/-! ## Lemmas about the sorter model -/

/-! ## Claim C2 -/

/-- Boolean helper: a chain of early-return ifs is the disjunction of its
conditions. -/
theorem bool_if_chain (a b c d : Bool) :
    (if a then true else if b then true else if c then true else if d then true else false)
      = (a || b || c || d) := by
  cases a <;> cases b <;> cases c <;> cases d <;> simp

/-- C2: for every candidate id, the code classification `_is_weak_prereq`
coincides with the spec classification: criteria `None` → weak; stats
missing for the id → weak; otherwise weak iff at least one configured
(non-None) threshold triggers — stability below `min_stability`, lapses
above `max_lapses`, review count below `min_reviews`, or interval below
`max_interval` — and strong otherwise. -/
theorem c2_weak_classification (card_id : String) (criteria : Option WeakPrereqCriteria)
    (card_stats : CardStatsMap) :
    _is_weak_prereq card_id criteria card_stats
      = specWeakClassification card_id criteria card_stats := by
  cases criteria with
  | none => rfl
  | some crit =>
    cases card_stats with
    | none => rfl
    | some statsMap =>
      unfold _is_weak_prereq specWeakClassification
      cases h : statsLookup statsMap card_id with
      | none => simp only [h]
      | some stats =>
        simp only [h]
        rw [bool_if_chain]
        unfold specWeakTrigger
        cases hms : crit.min_stability <;> cases hst : stats.stability <;>
          cases hml : crit.max_lapses <;> cases hmr : crit.min_reviews <;>
          cases hmi : crit.max_interval <;>
          simp [Option.elim, hms, hst, hml, hmr, hmi]


/-- Every element of a cycle has a successor inside the cycle: some
`y ∈ c` with `y ∈ preds x`. -/
theorem cycle_elem_next {preds : String → List String} {c : List String}
    (hc : CycleFor preds c) {x : String} (hx : x ∈ c) :
    ∃ y ∈ c, y ∈ preds x := by
  obtain ⟨hlen, hhl, hch⟩ := hc
  obtain ⟨⟨i, hi⟩, rfl⟩ := List.mem_iff_get.mp hx
  rcases Nat.lt_or_ge (i + 1) c.length with h1 | h1
  · exact ⟨c.get ⟨i + 1, h1⟩, List.get_mem c _ _, List.chain'_iff_get.mp hch i (by omega)⟩
  · -- `x` is the last entry, hence equal to the head; step from the head.
    have hi' : i = c.length - 1 := by omega
    have hlast : c.get ⟨i, hi⟩ = c.get ⟨0, by omega⟩ := by
      have h0 : c.head? = some (c.get ⟨0, by omega⟩) := by
        rw [List.head?_eq_getElem?, List.getElem?_eq_getElem (by omega)]
        simp [List.get_eq_getElem]
      have hL : c.getLast? = some (c.get ⟨i, hi⟩) := by
        rw [List.getLast?_eq_getElem?, List.getElem?_eq_getElem (by omega)]
        simp [List.get_eq_getElem, hi']
      rw [hhl, hL] at h0
      exact Option.some_injective _ h0
    refine ⟨c.get ⟨1, by omega⟩, List.get_mem c _ _, ?_⟩
    rw [hlast]
    exact List.chain'_iff_get.mp hch 0 (by omega)

/-- Every element of a cycle is a predecessor of some element of the
cycle: some `y ∈ c` with `x ∈ preds y`. -/
theorem cycle_elem_prev {preds : String → List String} {c : List String}
    (hc : CycleFor preds c) {x : String} (hx : x ∈ c) :
    ∃ y ∈ c, x ∈ preds y := by
  obtain ⟨hlen, hhl, hch⟩ := hc
  obtain ⟨⟨i, hi⟩, rfl⟩ := List.mem_iff_get.mp hx
  rcases Nat.eq_or_lt_of_le (Nat.zero_le i) with h0 | h0
  · -- `x` is the head, hence equal to the last entry; step into it from
    -- the second-to-last entry.
    have hhead : c.get ⟨i, hi⟩ = c.get ⟨c.length - 1, by omega⟩ := by
      have hH : c.head? = some (c.get ⟨i, hi⟩) := by
        rw [List.head?_eq_getElem?, List.getElem?_eq_getElem (by omega)]
        simp [List.get_eq_getElem, ← h0]
      have hL : c.getLast? = some (c.get ⟨c.length - 1, by omega⟩) := by
        rw [List.getLast?_eq_getElem?, List.getElem?_eq_getElem (by omega)]
        simp [List.get_eq_getElem]
      rw [hhl, hL] at hH
      exact (Option.some_injective _ hH).symm
    refine ⟨c.get ⟨c.length - 2, by omega⟩, List.get_mem c _ _, ?_⟩
    rw [hhead]
    have hstep := List.chain'_iff_get.mp hch (c.length - 2) (by omega)
    have he : c.length - 2 + 1 = c.length - 1 := by omega
    simpa [he] using hstep
  · refine ⟨c.get ⟨i - 1, by omega⟩, List.get_mem c _ _, ?_⟩
    have hstep := List.chain'_iff_get.mp hch (i - 1) (by omega)
    have he : i - 1 + 1 = i := by omega
    simpa [he] using hstep

/-- In a stuck remainder, every node keeps a predecessor inside the
remainder. -/
theorem stuck_has_pred {preds : String → List String} {R : List String}
    (h : R.filter (fun n => (preds n).all (fun p => !(R.contains p))) = []) :
    ∀ x ∈ R, ∃ y ∈ preds x, y ∈ R := by
  intro x hx
  have hnall := List.filter_eq_nil_iff.mp h x hx
  simp only [List.all_eq_true, Bool.not_eq_true'] at hnall
  push_neg at hnall
  obtain ⟨y, hy, hyc⟩ := hnall
  refine ⟨y, hy, ?_⟩
  have : R.contains y = true := by
    cases hcy : R.contains y with
    | false => exact absurd hcy hyc
    | true => rfl
  simpa using this

/-- A duplicate-free list contained in `l` is no longer than `l`. -/
theorem nodup_length_le {l₁ l₂ : List String} (h₁ : l₁.Nodup) (h₂ : l₁ ⊆ l₂) :
    l₁.length ≤ l₂.length := by
  have hcard := List.toFinset_card_le (α := String) l₂
  have hsubset : l₁.toFinset ⊆ l₂.toFinset := by
    intro x hx
    simp only [List.mem_toFinset] at hx ⊢
    exact h₂ hx
  have hle := Finset.card_le_card hsubset
  have heq : l₁.toFinset.card = l₁.length := List.toFinset_card_of_nodup h₁
  omega

/-- Soundness of the predecessor walk: starting from a valid walk prefix
inside a stuck remainder `R`, with enough fuel, the walk produces a cycle
whose nodes lie in `R`. -/
theorem predWalk_sound {preds : String → List String} {R : List String}
    (hstuck : ∀ n ∈ R, ∃ y ∈ preds n, y ∈ R) :
    ∀ (fuel : Nat) (x : String) (path : List String),
      x ∈ R → path.getLast? = some x → path.Nodup → (∀ a ∈ path, a ∈ R) →
      List.Chain' (fun a b => b ∈ preds a) path →
      R.length + 1 ≤ fuel + path.length →
      CycleFor preds (predWalk preds R fuel x path) ∧
        ∀ a ∈ predWalk preds R fuel x path, a ∈ R := by
  intro fuel
  induction fuel with
  | zero =>
    intro x path hx hlast hnd hsub hch hfuel
    exfalso
    have hle : path.length ≤ R.length := nodup_length_le hnd (fun a ha => hsub a ha)
    omega
  | succ fuel ih =>
    intro x path hx hlast hnd hsub hch hfuel
    obtain ⟨y0, hy0p, hy0R⟩ := hstuck x hx
    have hfind : ((preds x).find? (fun p => R.contains p)).isSome := by
      cases hf : (preds x).find? (fun p => R.contains p) with
      | none =>
        exfalso
        exact absurd (by simpa using List.elem_eq_true_of_mem hy0R)
          (List.find?_eq_none.mp hf y0 hy0p)
      | some _ => rfl
    obtain ⟨y, hy⟩ := Option.isSome_iff_exists.mp hfind
    have hyP : y ∈ preds x := List.mem_of_find?_eq_some hy
    have hyR : y ∈ R := by
      have := List.find?_some hy
      simpa using this
    rw [predWalk, hy]
    by_cases hyp : y ∈ path
    · -- close the cycle: cut the walk at the first occurrence of `y`
      simp only [if_pos hyp]
      set i := path.indexOf y with hidef
      have hi : i < path.length := List.indexOf_lt_length.mpr hyp
      have hdroplen : (path.drop i).length = path.length - i := List.length_drop i path
      have hdropne : path.drop i ≠ [] := by
        intro hcon
        rw [hcon] at hdroplen
        simp at hdroplen
        omega
      have hheady : (path.drop i).head? = some y := by
        rw [List.head?_drop, List.getElem?_eq_getElem hi]
        have : path[i] = y := List.getElem_indexOf hi
        rw [this]
      have hlastdrop : (path.drop i).getLast? = some x := by
        have hsplit : path.take i ++ path.drop i = path := List.take_append_drop i path
        have := List.getLast?_append_of_ne_nil (path.take i) hdropne
        rw [hsplit] at this
        rw [← this, hlast]
      constructor
      · refine ⟨?_, ?_, ?_⟩
        · have : 1 ≤ (path.drop i).length := by
            cases hd : path.drop i with
            | nil => exact absurd hd hdropne
            | cons a as => simp
          simp only [List.length_append, List.length_singleton]
          omega
        · -- head is `y`, last is `y`
          rw [List.head?_append, hheady]
          simp
        · -- chain: the walk chain on the cut segment, plus the closing step
          rw [List.chain'_append]
          refine ⟨?_, List.chain'_singleton y, ?_⟩
          · have hsplit : path.take i ++ path.drop i = path := List.take_append_drop i path
            have := hch
            rw [← hsplit] at this
            exact this.right_of_append
          · intro a ha b hb
            rw [hlastdrop] at ha
            simp only [List.head?_cons, Option.mem_def, Option.some.injEq] at ha hb
            subst ha
            subst hb
            exact hyP
      · intro a ha
        rcases List.mem_append.mp ha with h | h
        · exact hsub a (List.mem_of_mem_drop h)
        · simp only [List.mem_singleton] at h
          subst h
          exact hyR
    · -- extend the walk with the new node `y`
      simp only [if_neg hyp]
      refine ih y (path ++ [y]) hyR (by simp) ?_ ?_ ?_ ?_
      · rw [List.nodup_append]
        simp [hnd, hyp]
      · intro a ha
        rcases List.mem_append.mp ha with h | h
        · exact hsub a h
        · simp only [List.mem_singleton] at h
          subst h
          exact hyR
      · rw [List.chain'_append]
        refine ⟨hch, List.chain'_singleton y, ?_⟩
        intro a ha b hb
        rw [hlast] at ha
        simp only [Option.mem_def, Option.some.injEq] at ha
        subst ha
        simp only [List.head?_cons, Option.mem_def, Option.some.injEq] at hb
        subst hb
        exact hyP
      · simp only [List.length_append, List.length_singleton]
        omega

/-- Soundness of `findCycle` on a stuck nonempty remainder. -/
theorem findCycle_sound {preds : String → List String} {R : List String}
    (hstuck : ∀ n ∈ R, ∃ y ∈ preds n, y ∈ R) (hne : R ≠ []) :
    CycleFor preds (findCycle preds R) ∧ ∀ a ∈ findCycle preds R, a ∈ R := by
  cases R with
  | nil => exact absurd rfl hne
  | cons x rest =>
    have hx : x ∈ x :: rest := List.mem_cons_self x rest
    have := predWalk_sound hstuck ((x :: rest).length + 1) x [x] hx (by simp)
      (by simp) (by simpa using hx) (List.chain'_singleton x) (by simp)
    simpa [findCycle] using this

/-- Whatever `peel` reports as a cycle really is a cycle with all its
nodes in the remainder it started from. -/
theorem peel_error_sound {preds : String → List String} :
    ∀ (fuel : Nat) (out R : List String) (c : List String),
      R.length < fuel → peel preds fuel out R = .error c →
      CycleFor preds c ∧ ∀ a ∈ c, a ∈ R := by
  intro fuel
  induction fuel with
  | zero => intro out R c hlen; omega
  | succ fuel ih =>
    intro out R c hlen hpeel
    rw [peel] at hpeel
    set ready := R.filter (fun n => (preds n).all (fun p => !(R.contains p))) with hready
    by_cases hre : ready.isEmpty
    · rw [if_pos hre] at hpeel
      by_cases hRe : R.isEmpty
      · rw [if_pos hRe] at hpeel
        cases hpeel
      · rw [if_neg hRe] at hpeel
        have hc : findCycle preds R = c := by
          injection hpeel
        have hstuck : ∀ x ∈ R, ∃ y ∈ preds x, y ∈ R :=
          stuck_has_pred (by rw [← hready]; exact List.isEmpty_iff.mp hre)
        have hne : R ≠ [] := fun hcon => hRe (by simp [hcon])
        rw [← hc]
        exact findCycle_sound hstuck hne
    · rw [if_neg hre] at hpeel
      have hreadysub : ready ⊆ R := by
        intro a ha; exact List.mem_of_mem_filter ha
      have hrem : (R.filter (fun n => !(ready.contains n))).length < R.length := by
        apply List.length_filter_lt_length_iff_exists.mpr
        have hrne : ready ≠ [] := fun hcon => hre (by simp [hcon])
        obtain ⟨r0, hr0⟩ := List.exists_mem_of_ne_nil ready hrne
        refine ⟨r0, hreadysub hr0, ?_⟩
        simp [List.elem_eq_true_of_mem, hr0]
      have hres := ih (out ++ ready) (R.filter (fun n => !(ready.contains n))) c
        (by omega) hpeel
      exact ⟨hres.1, fun a ha => List.mem_of_mem_filter (hres.2 a ha)⟩

/-- Removing the ready nodes from `R` is the same as filtering with the
negated readiness predicate. -/
theorem remaining_eq_filter_not (R : List String) (p : String → Bool) :
    R.filter (fun n => !((R.filter p).contains n)) = R.filter (fun n => !(p n)) := by
  apply List.filter_congr
  intro x hx
  congr 1
  cases hp : p x with
  | true =>
    have hmem : x ∈ R.filter p := List.mem_filter.mpr ⟨hx, hp⟩
    simpa using List.elem_eq_true_of_mem hmem
  | false =>
    have hnmem : x ∉ R.filter p := by
      intro hmem
      have h2 := (List.mem_filter.mp hmem).2
      rw [hp] at h2
      cases h2
    simpa using hnmem

/-- A successful peel emits exactly the accumulated output and the
remainder, in some order. -/
theorem peel_ok_perm {preds : String → List String} :
    ∀ (fuel : Nat) (out R l : List String),
      R.length < fuel → peel preds fuel out R = .ok l → List.Perm l (out ++ R) := by
  intro fuel
  induction fuel with
  | zero => intro out R l hlen; omega
  | succ fuel ih =>
    intro out R l hlen hpeel
    rw [peel] at hpeel
    set ready := R.filter (fun n => (preds n).all (fun p => !(R.contains p))) with hready
    by_cases hre : ready.isEmpty
    · rw [if_pos hre] at hpeel
      by_cases hRe : R.isEmpty
      · rw [if_pos hRe] at hpeel
        have hl : out = l := by injection hpeel
        have hR : R = [] := List.isEmpty_iff.mp hRe
        subst hl
        rw [hR]
        simp
      · rw [if_neg hRe] at hpeel
        cases hpeel
    · rw [if_neg hre] at hpeel
      have hrem : (R.filter (fun n => !(ready.contains n))).length < R.length := by
        apply List.length_filter_lt_length_iff_exists.mpr
        have hrne : ready ≠ [] := fun hcon => hre (by simp [hcon])
        obtain ⟨r0, hr0⟩ := List.exists_mem_of_ne_nil ready hrne
        refine ⟨r0, List.mem_of_mem_filter hr0, ?_⟩
        simp [List.elem_eq_true_of_mem, hr0]
      have hres := ih (out ++ ready) (R.filter (fun n => !(ready.contains n))) l
        (by omega) hpeel
      have hsplit : List.Perm (ready ++ R.filter (fun n => !(ready.contains n))) R := by
        rw [hready, remaining_eq_filter_not]
        exact List.filter_append_perm _ R
      have hfinal : List.Perm ((out ++ ready) ++ R.filter (fun n => !(ready.contains n)))
          (out ++ R) := by
        rw [List.append_assoc]
        exact List.Perm.append_left out hsplit
      exact hres.trans hfinal

/-- Cycle preservation: nodes lying on a cycle are never ready, so a peel
over a remainder containing a full cycle can never succeed. -/
theorem peel_ne_ok_of_cycle {preds : String → List String} {c : List String}
    (hc : CycleFor preds c) :
    ∀ (fuel : Nat) (out R l : List String),
      R.length < fuel → (∀ x ∈ c, x ∈ R) → peel preds fuel out R ≠ .ok l := by
  intro fuel
  induction fuel with
  | zero => intro out R l hlen; omega
  | succ fuel ih =>
    intro out R l hlen hcR hpeel
    rw [peel] at hpeel
    set ready := R.filter (fun n => (preds n).all (fun p => !(R.contains p))) with hready
    have hcycle_not_ready : ∀ x ∈ c, x ∉ ready := by
      intro x hx hxready
      have hall := (List.mem_filter.mp (hready ▸ hxready)).2
      obtain ⟨y, hyc, hyp⟩ := cycle_elem_next hc hx
      have hyR : y ∈ R := hcR y hyc
      have hfalse := List.all_eq_true.mp hall y hyp
      rw [Bool.not_eq_true'] at hfalse
      have htrue : R.contains y = true := by simpa using List.elem_eq_true_of_mem hyR
      rw [htrue] at hfalse
      cases hfalse
    by_cases hre : ready.isEmpty
    · rw [if_pos hre] at hpeel
      by_cases hRe : R.isEmpty
      · -- the cycle is nonempty, yet contained in the empty remainder
        have hR : R = [] := List.isEmpty_iff.mp hRe
        have hclen := hc.1
        cases hcl : c with
        | nil => rw [hcl] at hclen; simp at hclen
        | cons a as =>
          have : a ∈ R := hcR a (by rw [hcl]; exact List.mem_cons_self a as)
          rw [hR] at this
          cases this
      · rw [if_neg hRe] at hpeel
        cases hpeel
    · rw [if_neg hre] at hpeel
      have hrem : (R.filter (fun n => !(ready.contains n))).length < R.length := by
        apply List.length_filter_lt_length_iff_exists.mpr
        have hrne : ready ≠ [] := fun hcon => hre (by simp [hcon])
        obtain ⟨r0, hr0⟩ := List.exists_mem_of_ne_nil ready hrne
        refine ⟨r0, List.mem_of_mem_filter hr0, ?_⟩
        simp [List.elem_eq_true_of_mem, hr0]
      refine ih (out ++ ready) (R.filter (fun n => !(ready.contains n))) l (by omega) ?_ hpeel
      intro x hx
      refine List.mem_filter.mpr ⟨hcR x hx, ?_⟩
      have hxnr := hcycle_not_ready x hx
      simpa using hxnr

/-- A successful `static_order` emits exactly the added nodes. -/
theorem staticOrder_ok_perm {preds : String → List String} {nodes l : List String}
    (h : staticOrder preds nodes = .ok l) : List.Perm l nodes := by
  have hp := peel_ok_perm (nodes.length + 1) [] nodes l (by omega) h
  simpa using hp

/-- The cycle reported by `static_order` is a cycle over the added
nodes. -/
theorem staticOrder_error_sound {preds : String → List String} {nodes c : List String}
    (h : staticOrder preds nodes = .error c) :
    CycleFor preds c ∧ ∀ a ∈ c, a ∈ nodes :=
  peel_error_sound (nodes.length + 1) [] nodes c (by omega) h

/-- The sorter cannot succeed when the added nodes contain a full
cycle. -/
theorem staticOrder_ne_ok_of_cycle {preds : String → List String} {nodes c l : List String}
    (hc : CycleFor preds c) (hsub : ∀ x ∈ c, x ∈ nodes) :
    staticOrder preds nodes ≠ .ok l :=
  peel_ne_ok_of_cycle hc (nodes.length + 1) [] nodes l (by omega) hsub

/-- Every node of a requires-cycle exists in the graph. -/
theorem requires_cycle_subset_nodes {g : DependencyGraph} {c : List String}
    (hc : IsRequiresCycleList g c) : ∀ x ∈ c, x ∈ g.nodeIds := by
  intro x hx
  obtain ⟨y, _, hxp⟩ := cycle_elem_prev hc hx
  have := (List.mem_filter.mp hxp).2
  exact of_decide_eq_true this

/-- Membership and duplicate-freeness of `topological_sort` output, for
any admissible iteration order of the `valid_ids` set: the output holds
exactly the requested ids that exist in the graph, without duplicates, in
the success path and the cycle-fallback path alike. -/
theorem topological_sort_output (g : DependencyGraph) (card_ids order : List String)
    (hord : IsPySetOrder order (validIdsList g card_ids)) :
    (∀ x, x ∈ topological_sort g card_ids order ↔ (x ∈ card_ids ∧ x ∈ g.nodeIds))
      ∧ (topological_sort g card_ids order).Nodup := by
  have hordnodup : order.Nodup := hord.nodup_iff.mpr (List.nodup_dedup _)
  have hmemord : ∀ x, x ∈ order ↔ (x ∈ card_ids ∧ x ∈ g.nodeIds) := by
    intro x
    rw [hord.mem_iff, List.mem_dedup]
    unfold validIdsList
    rw [List.mem_filter]
    constructor
    · rintro ⟨h1, h2⟩
      exact ⟨h1, of_decide_eq_true h2⟩
    · rintro ⟨h1, h2⟩
      exact ⟨h1, decide_eq_true h2⟩
  unfold topological_sort topological_sortR
  cases h : staticOrder (fun n => (g.get_prerequisites n).filter (fun p => p ∈ order)) order with
  | ok l =>
    have hperm := staticOrder_ok_perm h
    refine ⟨fun x => ?_, hperm.nodup_iff.mpr hordnodup⟩
    rw [show (x ∈ l) ↔ x ∈ order from hperm.mem_iff]
    exact hmemord x
  | error c => exact ⟨hmemord, hordnodup⟩

/-! ## Claims C3, C9, C1 -/

/-- C3: `detect_cycles` returns `[]` iff the requires-subgraph restricted
to edges between existing nodes is acyclic; when that subgraph is cyclic
it returns a list holding exactly one cycle of the subgraph. -/
theorem c3_detect_cycles (g : DependencyGraph) :
    (detect_cycles g = [] ↔ ¬ ∃ c, IsRequiresCycleList g c)
      ∧ ((∃ c, IsRequiresCycleList g c) →
          ∃ c, detect_cycles g = [c] ∧ IsRequiresCycleList g c) := by
  cases h : staticOrder (fun n => validPrereqs g n) g.nodeIds with
  | ok l =>
    have hempty : detect_cycles g = [] := by unfold detect_cycles; rw [h]
    have hnocycle : ¬ ∃ c, IsRequiresCycleList g c := by
      rintro ⟨c, hc⟩
      exact staticOrder_ne_ok_of_cycle hc (requires_cycle_subset_nodes hc) h
    exact ⟨by simp [hempty, hnocycle], fun hex => absurd hex hnocycle⟩
  | error c =>
    have hval : detect_cycles g = [c] := by unfold detect_cycles; rw [h]
    have hc : IsRequiresCycleList g c := (staticOrder_error_sound h).1
    refine ⟨⟨fun habs => ?_, fun hno => absurd ⟨c, hc⟩ hno⟩, fun _ => ⟨c, hval, hc⟩⟩
    rw [hval] at habs
    cases habs

/-- Witness for C3: on the concrete cyclic graph `gAB`, `detect_cycles`
reports exactly one genuine cycle. -/
theorem c3_detect_cycles_witness :
    ∃ c, detect_cycles gAB = [c] ∧ IsRequiresCycleList gAB c :=
  (c3_detect_cycles gAB).2 ⟨["a", "b", "a"], by decide⟩

/-- C9: every id returned by `topological_sort` is a requested id that
exists as a graph node, the output has no duplicates, and requested ids
absent from the graph are dropped — for every admissible set iteration
order, hence in the success path and the cycle-fallback path alike. -/
theorem c9_topological_sort_membership (g : DependencyGraph)
    (card_ids order : List String)
    (hord : IsPySetOrder order (validIdsList g card_ids)) :
    (∀ x, x ∈ topological_sort g card_ids order ↔ (x ∈ card_ids ∧ x ∈ g.nodeIds))
      ∧ (topological_sort g card_ids order).Nodup :=
  topological_sort_output g card_ids order hord

/-- Witness for C9 at a concrete graph and order: ids absent from the
graph (here `"z"`) are dropped, the rest are kept without duplicates. -/
theorem c9_topological_sort_membership_witness :
    IsPySetOrder ["b", "a"] (validIdsList gChain ["a", "b", "z"])
      ∧ ((∀ x, x ∈ topological_sort gChain ["a", "b", "z"] ["b", "a"]
            ↔ (x ∈ ["a", "b", "z"] ∧ x ∈ gChain.nodeIds))
          ∧ (topological_sort gChain ["a", "b", "z"] ["b", "a"]).Nodup) :=
  ⟨by decide, c9_topological_sort_membership gChain ["a", "b", "z"] ["b", "a"] (by decide)⟩

/-- C1 (code bug): on a cyclic subset, `topological_sort` does fall back
without raising and does flag a warning, but the fallback is
`list(valid_ids)` over a Python *set*, whose iteration order is
hash-dependent — not the original input order.  Under the admissible set
order `["b", "a"]` the call with input order `["a", "b"]` returns
`["b", "a"]`, contradicting the claimed (and comment-documented)
"original input order" while the inline comment in the code promises it. -/
theorem c1_cycle_fallback_set_order :
    IsPySetOrder ["b", "a"] (validIdsList gAB ["a", "b"])
      ∧ topological_sortR gAB ["a", "b"] ["b", "a"] = (["b", "a"], true)
      ∧ (["b", "a"] : List String) ≠ ["a", "b"] := by
  refine ⟨by decide, ?_, by decide⟩
  decide

/-! ## Lemmas for the queue builder -/

/-- Output of `topological_sort` is always drawn from the iteration order
of the valid set, in the success path and the fallback path alike. -/
theorem topological_sort_subset_order (g : DependencyGraph) (ids order : List String) :
    ∀ x ∈ topological_sort g ids order, x ∈ order := by
  unfold topological_sort topological_sortR
  cases h : staticOrder (fun n => (g.get_prerequisites n).filter (fun p => p ∈ order)) order with
  | ok l =>
    intro x hx
    exact (staticOrder_ok_perm h).mem_iff.mp hx
  | error c => intro x hx; exact hx

/-- Output of `topological_sort` has the same length as the iteration
order of the valid set. -/
theorem topological_sort_length (g : DependencyGraph) (ids order : List String) :
    (topological_sort g ids order).length = order.length := by
  unfold topological_sort topological_sortR
  cases h : staticOrder (fun n => (g.get_prerequisites n).filter (fun p => p ∈ order)) order with
  | ok l => exact (staticOrder_ok_perm h).length_eq
  | error c => rfl

/-- Capping never invents elements. -/
theorem capWeak_subset (maxN : Nat) (cs : CardStatsMap) (w : List String) :
    ∀ x ∈ capWeakPrereqs maxN cs w, x ∈ w := by
  unfold capWeakPrereqs
  split
  · split
    · intro x hx
      exact (List.perm_insertionSort _ _).subset (List.take_subset _ _ hx)
    · intro x hx
      exact List.take_subset _ _ hx
  · intro x hx
    exact hx

/-- A reflexive-total relation is pairwise on any list. -/
theorem pairwise_of_total_rel {r : String → String → Prop} (h : ∀ a b, r a b) :
    ∀ l : List String, l.Pairwise r := by
  intro l
  induction l with
  | nil => exact List.Pairwise.nil
  | cons a rest ih => exact List.Pairwise.cons (fun b _ => h a b) ih

/-! ## Claims C8, C5, C6 -/

/-- C8: `include_related=True` raises the unsupported-feature error before
any other work (the guard is the first statement of the function) and the
call never produces a normal `QueueBuildResult`. -/
theorem c8_include_related_raises (g : DependencyGraph) (due_card_ids : List String)
    (depth max_nodes : Nat) (weak_criteria : Option WeakPrereqCriteria)
    (card_stats : CardStatsMap) (prereqOrder ord1 ord2 : List String) :
    build_dependency_queue g due_card_ids depth max_nodes true weak_criteria card_stats
        prereqOrder ord1 ord2 = .error notImplementedMsg
      ∧ ∀ r : QueueBuildResult,
          build_dependency_queue g due_card_ids depth max_nodes true weak_criteria card_stats
            prereqOrder ord1 ord2 ≠ .ok r := by
  refine ⟨rfl, fun r h => ?_⟩
  simp [build_dependency_queue] at h

/-- C5: with `include_related=False`, a due id never appears in
`prereq_queue` — the due ids are removed from the candidate pool before
classification, and every id in `prereq_queue` descends from that pool. -/
theorem c5_due_never_in_prereq_queue (g : DependencyGraph) (due_card_ids : List String)
    (depth max_nodes : Nat) (weak_criteria : Option WeakPrereqCriteria)
    (card_stats : CardStatsMap) (prereqOrder ord1 ord2 : List String)
    (r : QueueBuildResult)
    (hpo : IsPySetOrder prereqOrder (candidatePool g due_card_ids depth))
    (h1 : IsPySetOrder ord1 (validIdsList g (capWeakPrereqs max_nodes card_stats
      (weakStrongLists weak_criteria card_stats prereqOrder).1)))
    (heq : build_dependency_queue g due_card_ids depth max_nodes false weak_criteria card_stats
      prereqOrder ord1 ord2 = .ok r) :
    ∀ x ∈ due_card_ids, x ∉ r.prereq_queue := by
  intro x hx hmem
  have hr : r = buildQueueCore g due_card_ids depth max_nodes weak_criteria card_stats
      prereqOrder ord1 ord2 := by
    have h := heq
    simp only [build_dependency_queue, if_neg Bool.false_ne_true, Except.ok.injEq] at h
    exact h.symm
  subst hr
  simp only [buildQueueCore] at hmem
  have hord1 : x ∈ ord1 := topological_sort_subset_order g _ ord1 x hmem
  have hvalid : x ∈ validIdsList g (capWeakPrereqs max_nodes card_stats
      (weakStrongLists weak_criteria card_stats prereqOrder).1) := by
    have := h1.subset hord1
    exact List.mem_dedup.mp this
  have hweak' : x ∈ capWeakPrereqs max_nodes card_stats
      (weakStrongLists weak_criteria card_stats prereqOrder).1 :=
    List.mem_of_mem_filter hvalid
  have hws : x ∈ (weakStrongLists weak_criteria card_stats prereqOrder).1 :=
    capWeak_subset _ _ _ x hweak'
  have hpoMem : x ∈ prereqOrder := List.mem_of_mem_filter hws
  have hpool : x ∈ candidatePool g due_card_ids depth :=
    List.mem_dedup.mp (hpo.subset hpoMem)
  have hnotdue := (List.mem_filter.mp hpool).2
  rw [decide_eq_true_eq] at hnotdue
  exact hnotdue hx

/-- The `weakKeyLE` comparison is universally true when the stats map is
falsy (absent or empty): every key is missing, i.e. plus infinity. -/
theorem weakKeyLE_total_of_falsy {card_stats : CardStatsMap}
    (h : pyTruthy card_stats = false) : ∀ a b, weakKeyLE card_stats a b := by
  intro a b
  unfold weakKeyLE fullStatKey
  cases card_stats with
  | none => rfl
  | some m =>
    have hm : m = [] := by
      cases m with
      | nil => rfl
      | cons p rest =>
        rw [pyTruthy] at h
        simp at h
    subst hm
    rfl

/-- C6: when the weak candidate list exceeds `max_nodes`, the capped list
is an ascending-stability selection (missing stability = plus infinity,
so such cards are dropped first): it has exactly `max_nodes` entries, all
drawn from the weak list, pairwise sorted by the stability key, and no
dropped weak candidate has a smaller key than a kept one; consequently
`prereq_queue` never exceeds `max_nodes` entries. -/
theorem c6_cap_sorted_truncation (g : DependencyGraph) (due_card_ids : List String)
    (depth max_nodes : Nat) (weak_criteria : Option WeakPrereqCriteria)
    (card_stats : CardStatsMap) (prereqOrder ord1 ord2 : List String)
    (r : QueueBuildResult)
    (hpo : IsPySetOrder prereqOrder (candidatePool g due_card_ids depth))
    (h1 : IsPySetOrder ord1 (validIdsList g (capWeakPrereqs max_nodes card_stats
      (weakStrongLists weak_criteria card_stats prereqOrder).1)))
    (hover : max_nodes < (weakStrongLists weak_criteria card_stats prereqOrder).1.length)
    (heq : build_dependency_queue g due_card_ids depth max_nodes false weak_criteria card_stats
      prereqOrder ord1 ord2 = .ok r) :
    (capWeakPrereqs max_nodes card_stats
        (weakStrongLists weak_criteria card_stats prereqOrder).1).length = max_nodes
      ∧ (∀ x ∈ capWeakPrereqs max_nodes card_stats
            (weakStrongLists weak_criteria card_stats prereqOrder).1,
          x ∈ (weakStrongLists weak_criteria card_stats prereqOrder).1)
      ∧ (capWeakPrereqs max_nodes card_stats
          (weakStrongLists weak_criteria card_stats prereqOrder).1).Pairwise
            (weakKeyLE card_stats)
      ∧ (∀ x ∈ capWeakPrereqs max_nodes card_stats
            (weakStrongLists weak_criteria card_stats prereqOrder).1,
          ∀ y ∈ (weakStrongLists weak_criteria card_stats prereqOrder).1,
            y ∉ capWeakPrereqs max_nodes card_stats
              (weakStrongLists weak_criteria card_stats prereqOrder).1 →
              weakKeyLE card_stats x y)
      ∧ r.prereq_queue.length ≤ max_nodes := by
  set weak := (weakStrongLists weak_criteria card_stats prereqOrder).1 with hweak
  set weak' := capWeakPrereqs max_nodes card_stats weak with hweak'
  -- the weak list is duplicate-free, being a filter of a set order
  have hponodup : prereqOrder.Nodup := hpo.nodup_iff.mpr (List.nodup_dedup _)
  have hweaknodup : weak.Nodup := by
    rw [hweak]
    exact hponodup.filter _
  -- the common part: length of the prereq queue, given the first clause
  have hqueue : weak'.length = max_nodes → r.prereq_queue.length ≤ max_nodes := by
    intro hlen
    have hr : r = buildQueueCore g due_card_ids depth max_nodes weak_criteria card_stats
        prereqOrder ord1 ord2 := by
      have h := heq
      simp only [build_dependency_queue, if_neg Bool.false_ne_true, Except.ok.injEq] at h
      exact h.symm
    subst hr
    simp only [buildQueueCore] at *
    rw [topological_sort_length]
    have hlord : ord1.length = (validIdsList g weak').dedup.length := h1.length_eq
    have hdedup : (validIdsList g weak').dedup.length ≤ (validIdsList g weak').length :=
      (List.dedup_sublist _).length_le
    have hfilter : (validIdsList g weak').length ≤ weak'.length := by
      unfold validIdsList
      exact List.length_filter_le _ _
    omega
  cases htr : pyTruthy card_stats with
  | false =>
    -- falsy stats: plain truncation; every key is plus infinity
    have hcap : weak' = weak.take max_nodes := by
      rw [hweak', capWeakPrereqs, if_pos hover,
        if_neg (by rw [htr]; exact Bool.false_ne_true)]
    have hlen : weak'.length = max_nodes := by
      rw [hcap, List.length_take]
      omega
    refine ⟨hlen, fun x hx => capWeak_subset _ _ _ x hx, ?_, ?_, hqueue hlen⟩
    · exact pairwise_of_total_rel (weakKeyLE_total_of_falsy htr) weak'
    · intro x _ y _ _
      exact weakKeyLE_total_of_falsy htr x y
  | true =>
    -- truthy stats: a stable sort by the stability key, then truncation
    obtain ⟨m, hm⟩ : ∃ m, card_stats = some m := by
      cases card_stats with
      | none => rw [pyTruthy] at htr; cases htr
      | some m => exact ⟨m, rfl⟩
    have hgetD : card_stats.getD [] = m := by rw [hm]; rfl
    set s := weak.insertionSort (weakSortRel m) with hs
    have hsperm : List.Perm s weak := List.perm_insertionSort _ _
    have hslen : s.length = weak.length := hsperm.length_eq
    have hsorted : s.Pairwise (weakSortRel m) := List.sorted_insertionSort _ _
    have hcap : weak' = s.take max_nodes := by
      rw [hweak', capWeakPrereqs, if_pos hover, if_pos htr, hgetD]
    have hlen : weak'.length = max_nodes := by
      rw [hcap, List.length_take]
      omega
    have hrelKey : ∀ a b, weakSortRel m a b → weakKeyLE card_stats a b := by
      intro a b hab
      unfold weakKeyLE fullStatKey
      rw [hm]
      exact hab
    refine ⟨hlen, fun x hx => capWeak_subset _ _ _ x hx, ?_, ?_, hqueue hlen⟩
    · rw [hcap]
      exact ((hsorted.sublist (List.take_sublist _ _)).imp (hrelKey _ _))
    · intro x hxw y hyweak hynot
      have hys : y ∈ s := hsperm.mem_iff.mpr hyweak
      have hsplit : s.take max_nodes ++ s.drop max_nodes = s := List.take_append_drop _ _
      have hydrop : y ∈ s.drop max_nodes := by
        rcases List.mem_append.mp (by rw [hsplit]; exact hys) with h | h
        · exact absurd (by rw [hcap]; exact h) hynot
        · exact h
      have hcross := (List.pairwise_append.mp (by rw [hsplit]; exact hsorted)).2.2
      have hxtake : x ∈ s.take max_nodes := by rw [hcap] at hxw; exact hxw
      exact hrelKey x y (hcross x hxtake y hydrop)

/-- Witness for C5 on the chain graph: the due id `"a"` never enters the
prerequisite queue. -/
theorem c5_due_never_in_prereq_queue_witness :
    IsPySetOrder ["b", "c"] (candidatePool gChain ["a"] 2)
      ∧ "a" ∈ ["a"]
      ∧ "a" ∉ (buildQueueCore gChain ["a"] 2 50 none none ["b", "c"] ["c", "b"]
          ["a"]).prereq_queue :=
  ⟨by decide, by decide,
    c5_due_never_in_prereq_queue gChain ["a"] 2 50 none none ["b", "c"] ["c", "b"] ["a"]
      (buildQueueCore gChain ["a"] 2 50 none none ["b", "c"] ["c", "b"] ["a"])
      (by decide) (by decide) rfl "a" (by decide)⟩

/-- Witness for C6: with `max_nodes = 1` and two weak candidates, the
capped queue keeps one card and the prerequisite queue respects the
bound. -/
theorem c6_cap_sorted_truncation_witness :
    IsPySetOrder ["p", "q"] (candidatePool gMPQ ["m"] 1)
      ∧ 1 < (weakStrongLists none (some statsPQ) ["p", "q"]).1.length
      ∧ (buildQueueCore gMPQ ["m"] 1 1 none (some statsPQ) ["p", "q"] ["p"]
          ["m"]).prereq_queue.length ≤ 1 :=
  ⟨by decide, by decide,
    (c6_cap_sorted_truncation gMPQ ["m"] 1 1 none (some statsPQ) ["p", "q"] ["p"] ["m"]
      (buildQueueCore gMPQ ["m"] 1 1 none (some statsPQ) ["p", "q"] ["p"] ["m"])
      (by decide) (by decide) (by decide) rfl).2.2.2.2⟩

/-! ## Claims C10 and C4 -/


/-- C10: querying `detect_cycles_for_card` for an id that is not a graph
node returns `[]` without error. -/
theorem c10_missing_card_no_cycles (g : DependencyGraph) (card_id : String)
    (h : card_id ∉ g.nodeIds) : detect_cycles_for_card g card_id = [] := by
  unfold detect_cycles_for_card
  rw [if_neg h]

/-- Witness for C10 at a concrete graph and an id absent from it. -/
theorem c10_missing_card_no_cycles_witness :
    "zz" ∉ gChain.nodeIds ∧ detect_cycles_for_card gChain "zz" = [] :=
  ⟨by decide, c10_missing_card_no_cycles gChain "zz" (by decide)⟩

/-- Counterexample to C4 as stated: `["a", "c", "d"]` is a true distinct
cycle through `"a"` of the requires-subgraph, yet
`detect_cycles_for_card` misses it (the shared node `d` is already
visited when the DFS reaches it through `c`), reporting only
`["a", "b", "d"]`. -/
theorem c4_counterexample :
    GoodCycle gTwoCycles "a" ["a", "c", "d"]
      ∧ detect_cycles_for_card gTwoCycles "a" = [["a", "b", "d"]]
      ∧ ["a", "c", "d"] ∉ detect_cycles_for_card gTwoCycles "a" := by
  refine ⟨by decide, by decide, by decide⟩

/-- Soundness of the `detect_cycles_for_card` DFS: from a valid state it
preserves the invariant, restores path and recursion stack, and only
grows the visited set. -/
theorem dfsCard_sound (g : DependencyGraph) (card_id : String) :
    ∀ (fuel : Nat) (cid : String) (st : DfsSt),
      cid ∈ g.nodeIds → cid ∉ st.visited →
      (∀ l', st.path.getLast? = some l' → cid ∈ validPrereqs g l') →
      DfsInv g card_id st →
      DfsInv g card_id (dfsCard g card_id fuel cid st)
        ∧ (dfsCard g card_id fuel cid st).path = st.path
        ∧ (dfsCard g card_id fuel cid st).rec_stack = st.rec_stack
        ∧ (∀ x ∈ st.visited, x ∈ (dfsCard g card_id fuel cid st).visited) := by
  intro fuel
  induction fuel with
  | zero =>
    intro cid st _ _ _ hinv
    exact ⟨hinv, rfl, rfl, fun x hx => hx⟩
  | succ fuel ih =>
    intro cid st hcid hvis hlink hinv
    obtain ⟨hrs, hnd, hpv, hch, hcnd, hcg⟩ := hinv
    have hcidpath : cid ∉ st.path := fun h => hvis (hpv cid h)
    -- the pushed state and the loop body
    set st1 : DfsSt :=
      { st with
        visited := st.visited ++ [cid]
        rec_stack := st.rec_stack ++ [cid]
        path := st.path ++ [cid] } with hst1
    set f : DfsSt → String → DfsSt := fun st p =>
      if p ∉ g.nodeIds then st
      else if p ∉ st.visited then dfsCard g card_id fuel p st
      else if p ∈ st.rec_stack then
        let cycle := st.path.drop (st.path.indexOf p)
        if card_id ∈ cycle ∧ cycle ∉ st.cycles then { st with cycles := st.cycles ++ [cycle] }
        else st
      else st
      with hf
    have hdef : dfsCard g card_id (fuel + 1) cid st =
        { (g.get_prerequisites cid).foldl f st1 with
          path := ((g.get_prerequisites cid).foldl f st1).path.dropLast
          rec_stack := ((g.get_prerequisites cid).foldl f st1).rec_stack.erase cid } := rfl
    -- properties of the pushed path
    have h1nd : (st.path ++ [cid]).Nodup := by
      rw [List.nodup_append]
      simp [hnd, hcidpath]
    have h1ch : List.Chain' (fun a b => b ∈ validPrereqs g a) (st.path ++ [cid]) := by
      rw [List.chain'_append]
      refine ⟨hch, List.chain'_singleton cid, ?_⟩
      intro a ha b hb
      simp only [List.head?_cons, Option.mem_def, Option.some.injEq] at hb
      subst hb
      exact hlink a ha
    have h1lastP : (st.path ++ [cid]).getLast? = some cid := by simp
    -- the fold preserves the mid-loop state description
    have hfold : ∀ (l : List String) (s : DfsSt),
        (∀ p ∈ l, p ∈ g.get_prerequisites cid) →
        s.rec_stack = s.path → s.path = st.path ++ [cid] →
        (∀ x ∈ s.path, x ∈ s.visited) → s.cycles.Nodup →
        (∀ c ∈ s.cycles, GoodCycle g card_id c) →
        (l.foldl f s).rec_stack = (l.foldl f s).path
          ∧ (l.foldl f s).path = st.path ++ [cid]
          ∧ (∀ x ∈ (l.foldl f s).path, x ∈ (l.foldl f s).visited)
          ∧ (l.foldl f s).cycles.Nodup
          ∧ (∀ c ∈ (l.foldl f s).cycles, GoodCycle g card_id c)
          ∧ (∀ x ∈ s.visited, x ∈ (l.foldl f s).visited) := by
      intro l
      induction l with
      | nil =>
        intro s _ h1 h2 h3 h4 h5
        exact ⟨h1, h2, h3, h4, h5, fun x hx => hx⟩
      | cons p rest ihl =>
        intro s hl hsrs hspath hspv hscnd hscg
        rw [List.foldl_cons]
        have hpprereq : p ∈ g.get_prerequisites cid := hl p (List.mem_cons_self p rest)
        have hlrest : ∀ q ∈ rest, q ∈ g.get_prerequisites cid :=
          fun q hq => hl q (List.mem_cons_of_mem p hq)
        by_cases hpn : p ∈ g.nodeIds
        · by_cases hpvs : p ∈ s.visited
          · by_cases hprs : p ∈ s.rec_stack
            · -- back edge: extract a cycle from the path
              have hppath : p ∈ s.path := hsrs ▸ hprs
              have hstep : f s p =
                  (if card_id ∈ s.path.drop (s.path.indexOf p)
                      ∧ s.path.drop (s.path.indexOf p) ∉ s.cycles then
                    { s with cycles := s.cycles ++ [s.path.drop (s.path.indexOf p)] }
                  else s) := by
                rw [hf]
                simp only [hpn, not_true_eq_false, if_false, hpvs, hprs, if_true]
              by_cases hnew : card_id ∈ s.path.drop (s.path.indexOf p)
                  ∧ s.path.drop (s.path.indexOf p) ∉ s.cycles
              · rw [hstep, if_pos hnew]
                -- the extracted slice is a genuine new cycle
                have hi : s.path.indexOf p < s.path.length := List.indexOf_lt_length.mpr hppath
                have hcycne : s.path.drop (s.path.indexOf p) ≠ [] := by
                  intro hcon
                  have hlen := congrArg List.length hcon
                  rw [List.length_drop] at hlen
                  simp at hlen
                  omega
                have hcychead : (s.path.drop (s.path.indexOf p)).head? = some p := by
                  rw [List.head?_drop, List.getElem?_eq_getElem hi, List.getElem_indexOf hi]
                have hcyclast : (s.path.drop (s.path.indexOf p)).getLast? = some cid := by
                  have hsplit := List.take_append_drop (s.path.indexOf p) s.path
                  have hg := List.getLast?_append_of_ne_nil
                    (s.path.take (s.path.indexOf p)) hcycne
                  rw [hsplit] at hg
                  rw [← hg, hspath, h1lastP]
                have hcycnd : (s.path.drop (s.path.indexOf p)).Nodup := by
                  have := hspath ▸ h1nd
                  exact this.sublist (List.drop_sublist _ _)
                have hcycch : List.Chain' (fun a b => b ∈ validPrereqs g a)
                    (s.path.drop (s.path.indexOf p)) := by
                  have hsplit := List.take_append_drop (s.path.indexOf p) s.path
                  have hchs : List.Chain' (fun a b => b ∈ validPrereqs g a) s.path := by
                    rw [hspath]
                    exact h1ch
                  rw [← hsplit] at hchs
                  exact hchs.right_of_append
                have hpvalid : p ∈ validPrereqs g cid := by
                  unfold validPrereqs
                  exact List.mem_filter.mpr ⟨hpprereq, decide_eq_true hpn⟩
                have hcycgood : GoodCycle g card_id (s.path.drop (s.path.indexOf p)) := by
                  refine ⟨hcycne, hcycnd, hcycch, ?_, hnew.1⟩
                  unfold wrapEdgeB
                  rw [hcychead, hcyclast]
                  exact decide_eq_true hpvalid
                have hnewcnd : (s.cycles ++ [s.path.drop (s.path.indexOf p)]).Nodup := by
                  rw [List.nodup_append]
                  refine ⟨hscnd, by simp, ?_⟩
                  intro c hc hc2
                  simp only [List.mem_singleton] at hc2
                  subst hc2
                  exact hnew.2 hc
                have hnewcg : ∀ c ∈ s.cycles ++ [s.path.drop (s.path.indexOf p)],
                    GoodCycle g card_id c := by
                  intro c hc
                  rcases List.mem_append.mp hc with h | h
                  · exact hscg c h
                  · simp only [List.mem_singleton] at h
                    subst h
                    exact hcycgood
                exact ihl { s with cycles := s.cycles ++ [s.path.drop (s.path.indexOf p)] }
                  hlrest hsrs hspath hspv hnewcnd hnewcg
              · rw [hstep, if_neg hnew]
                exact ihl _ hlrest hsrs hspath hspv hscnd hscg
            · have hstep : f s p = s := by
                rw [hf]
                simp only [hpn, not_true_eq_false, if_false, hpvs, hprs]
              rw [hstep]
              exact ihl _ hlrest hsrs hspath hspv hscnd hscg
          · -- unvisited: recurse
            have hstep : f s p = dfsCard g card_id fuel p s := by
              rw [hf]
              simp only [hpn, not_true_eq_false, if_false, hpvs, not_false_eq_true, if_true]
            rw [hstep]
            have hslink : ∀ l', s.path.getLast? = some l' → p ∈ validPrereqs g l' := by
              intro l' hl'
              rw [hspath, h1lastP] at hl'
              injection hl' with hl'
              subst hl'
              unfold validPrereqs
              exact List.mem_filter.mpr ⟨hpprereq, decide_eq_true hpn⟩
            have hsinv : DfsInv g card_id s := by
              refine ⟨hsrs, ?_, hspv, ?_, hscnd, hscg⟩
              · rw [hspath]; exact h1nd
              · rw [hspath]; exact h1ch
            obtain ⟨⟨hrs', hnd', hpv', hch', hcnd', hcg'⟩, hpath', hrec', hmono'⟩ :=
              ih p s hpn hpvs hslink hsinv
            have hres := ihl (dfsCard g card_id fuel p s) hlrest
              (hrec'.trans (hsrs.trans hpath'.symm)) (hpath'.trans hspath) hpv' hcnd' hcg'
            refine ⟨hres.1, hres.2.1, hres.2.2.1, hres.2.2.2.1, hres.2.2.2.2.1, ?_⟩
            intro x hx
            exact hres.2.2.2.2.2 x (hmono' x hx)
        · have hstep : f s p = s := by
            rw [hf]
            simp only [hpn, not_false_eq_true, if_true]
          rw [hstep]
          exact ihl _ hlrest hsrs hspath hspv hscnd hscg
    -- apply the fold description to the pushed state, then pop
    have h1rs : st1.rec_stack = st1.path := by rw [hst1]; simp [hrs]
    have h1path : st1.path = st.path ++ [cid] := by rw [hst1]
    have h1pv : ∀ x ∈ st1.path, x ∈ st1.visited := by
      intro x hx
      rw [hst1] at hx ⊢
      simp only [List.mem_append, List.mem_singleton] at hx ⊢
      rcases hx with h | h
      · exact Or.inl (hpv x h)
      · exact Or.inr h
    obtain ⟨h2rs, h2path, h2pv, h2cnd, h2cg, h2mono⟩ :=
      hfold (g.get_prerequisites cid) st1 (fun q hq => hq) h1rs h1path h1pv
        (by rw [hst1]; exact hcnd) (by rw [hst1]; exact hcg)
    rw [hdef]
    set st2 := (g.get_prerequisites cid).foldl f st1 with hst2
    have hfinpath : st2.path.dropLast = st.path := by
      rw [h2path]
      exact List.dropLast_concat
    have hfinrec : st2.rec_stack.erase cid = st.rec_stack := by
      rw [h2rs, h2path, List.erase_append_right _ hcidpath]
      simp [hrs]
    constructor
    · exact ⟨by simp [hfinpath, hfinrec, hrs], by simp [hfinpath, hnd],
        by
          intro x hx
          simp only at hx
          rw [hfinpath] at hx
          exact h2pv x (by rw [h2path]; exact List.mem_append_left _ hx),
        by simp [hfinpath, hch], h2cnd, h2cg⟩
    · refine ⟨by simp [hfinpath], by simp [hfinrec], ?_⟩
      intro x hx
      exact h2mono x (by rw [hst1]; exact List.mem_append_left _ hx)

/-- C4 (amended): every list returned by `detect_cycles_for_card` is a
true distinct cycle of the requires-subgraph passing through the queried
card; the function is not exhaustive over such cycles (see the
counterexample). -/
theorem c4_amended_cycles_sound (g : DependencyGraph) (card_id : String) :
    (detect_cycles_for_card g card_id).Nodup
      ∧ ∀ c ∈ detect_cycles_for_card g card_id, GoodCycle g card_id c := by
  unfold detect_cycles_for_card
  by_cases h : card_id ∈ g.nodeIds
  · rw [if_pos h]
    have hinit : DfsInv g card_id ⟨[], [], [], []⟩ := by
      refine ⟨rfl, List.nodup_nil, ?_, List.chain'_nil, List.nodup_nil, ?_⟩
      · intro x hx
        cases hx
      · intro c hc
        cases hc
    have hrun := (dfsCard_sound g card_id (g.nodeIds.length + 1) card_id ⟨[], [], [], []⟩ h
      (by intro hx; cases hx) (by intro l' hl'; cases hl') hinit).1
    exact ⟨hrun.2.2.2.2.1, hrun.2.2.2.2.2⟩
  · rw [if_neg h]
    exact ⟨List.nodup_nil, fun c hc => absurd hc (List.not_mem_nil c)⟩

/-- Witness for the amended C4: the one cycle reported on `gTwoCycles` is
a true distinct cycle through `"a"`. -/
theorem c4_amended_cycles_sound_witness :
    GoodCycle gTwoCycles "a" ["a", "b", "d"] :=
  (c4_amended_cycles_sound gTwoCycles "a").2 ["a", "b", "d"] (by decide)

/-! ## Lemmas about the local-graph walk (C7) -/

theorem walkAcc_zero (g : DependencyGraph) (nbrs : String → List String)
    (m : Nat) (cid : String) (acc : List String) :
    walkAcc g nbrs m 0 cid acc = acc := rfl

theorem walkAcc_succ (g : DependencyGraph) (nbrs : String → List String)
    (m fuel : Nat) (cid : String) (acc : List String) :
    walkAcc g nbrs m (fuel + 1) cid acc =
      if m ≤ acc.length then acc
      else
        (nbrs cid).foldl
          (fun acc2 nid =>
            if nid ∉ acc2 ∧ nid ∈ g.nodeIds then
              walkAcc g nbrs m fuel nid (acc2 ++ [nid])
            else acc2)
          acc := rfl

/-- Generic preservation of a predicate along a left fold. -/
theorem foldl_hold {P : List String → Prop} (f : List String → String → List String)
    (l : List String) (h : ∀ b p, p ∈ l → P b → P (f b p)) :
    ∀ b, P b → P (l.foldl f b) := by
  induction l with
  | nil => intro b hb; exact hb
  | cons p rest ih =>
    intro b hb
    rw [List.foldl_cons]
    exact ih (fun b' q hq hb' => h b' q (List.mem_cons_of_mem p hq) hb') (f b p)
      (h b p (List.mem_cons_self p rest) hb)

/-- The walk only appends to its accumulator. -/
theorem walkAcc_grows (g : DependencyGraph) (nbrs : String → List String) (m : Nat) :
    ∀ (fuel : Nat) (cid : String) (acc : List String),
      ∃ t, walkAcc g nbrs m fuel cid acc = acc ++ t := by
  intro fuel
  induction fuel with
  | zero => intro cid acc; exact ⟨[], by simp [walkAcc_zero]⟩
  | succ fuel ih =>
    intro cid acc
    rw [walkAcc_succ]
    split
    · exact ⟨[], by simp⟩
    · have := foldl_hold (P := fun b => ∃ t, b = acc ++ t)
        (fun acc2 nid =>
          if nid ∉ acc2 ∧ nid ∈ g.nodeIds then
            walkAcc g nbrs m fuel nid (acc2 ++ [nid])
          else acc2)
        (nbrs cid) ?_ acc ⟨[], by simp⟩
      · obtain ⟨t, ht⟩ := this
        exact ⟨t, ht⟩
      · intro b p _ hb
        obtain ⟨t, ht⟩ := hb
        show ∃ t',
          (if p ∉ b ∧ p ∈ g.nodeIds then walkAcc g nbrs m fuel p (b ++ [p]) else b) = acc ++ t'
        split
        · obtain ⟨t', ht'⟩ := ih p (b ++ [p])
          exact ⟨t ++ [p] ++ t', by rw [ht', ht]; simp⟩
        · exact ⟨t, ht⟩

/-- Accumulated elements survive the walk. -/
theorem walkAcc_mono (g : DependencyGraph) (nbrs : String → List String) (m : Nat)
    (fuel : Nat) (cid : String) (acc : List String) :
    ∀ x ∈ acc, x ∈ walkAcc g nbrs m fuel cid acc := by
  intro x hx
  obtain ⟨t, ht⟩ := walkAcc_grows g nbrs m fuel cid acc
  rw [ht]
  exact List.mem_append_left t hx

/-- With one level of fuel the walk adds only direct existing
neighbours. -/
theorem walkAcc_one_sound (g : DependencyGraph) (nbrs : String → List String) (m : Nat)
    (cid : String) (acc : List String) :
    ∀ x ∈ walkAcc g nbrs m 1 cid acc, x ∈ acc ∨ x ∈ validDeps g nbrs cid := by
  rw [walkAcc_succ]
  split
  · intro x hx
    exact Or.inl hx
  · apply foldl_hold (P := fun b => ∀ x ∈ b, x ∈ acc ∨ x ∈ validDeps g nbrs cid)
    · intro b p hp hb
      split
      · rename_i hcond
        rw [walkAcc_zero]
        intro x hx
        rcases List.mem_append.mp hx with h | h
        · exact hb x h
        · simp only [List.mem_singleton] at h
          subst h
          right
          unfold validDeps
          exact List.mem_filter.mpr ⟨hp, decide_eq_true hcond.2⟩
      · exact hb
    · intro x hx
      exact Or.inl hx

/-- With two levels of fuel the walk adds only direct existing neighbours
and their direct existing neighbours. -/
theorem walkAcc_two_sound (g : DependencyGraph) (nbrs : String → List String) (m : Nat)
    (cid : String) (acc : List String) :
    ∀ x ∈ walkAcc g nbrs m 2 cid acc,
      x ∈ acc ∨ x ∈ validDeps g nbrs cid
        ∨ ∃ p ∈ validDeps g nbrs cid, x ∈ validDeps g nbrs p := by
  rw [walkAcc_succ]
  split
  · intro x hx
    exact Or.inl hx
  · apply foldl_hold (P := fun b => ∀ x ∈ b,
      x ∈ acc ∨ x ∈ validDeps g nbrs cid ∨ ∃ p ∈ validDeps g nbrs cid, x ∈ validDeps g nbrs p)
    · intro b p hp hb
      split
      · rename_i hcond
        have hpvalid : p ∈ validDeps g nbrs cid := by
          unfold validDeps
          exact List.mem_filter.mpr ⟨hp, decide_eq_true hcond.2⟩
        intro x hx
        rcases walkAcc_one_sound g nbrs m p (b ++ [p]) x hx with h | h
        · rcases List.mem_append.mp h with h2 | h2
          · exact hb x h2
          · simp only [List.mem_singleton] at h2
            subst h2
            exact Or.inr (Or.inl hpvalid)
        · exact Or.inr (Or.inr ⟨p, hpvalid, h⟩)
      · exact hb
    · intro x hx
      exact Or.inl hx

/-- When the cap is not already hit at entry, the walk picks up every
direct existing neighbour (any positive fuel). -/
theorem walkAcc_complete (g : DependencyGraph) (nbrs : String → List String) (m : Nat)
    (fuel : Nat) (cid : String) (acc : List String) (hcap : acc.length < m) :
    ∀ x ∈ validDeps g nbrs cid, x ∈ walkAcc g nbrs m (fuel + 1) cid acc := by
  intro x hx
  have hxnb : x ∈ nbrs cid := List.mem_of_mem_filter hx
  have hxnode : x ∈ g.nodeIds := of_decide_eq_true (List.mem_filter.mp hx).2
  rw [walkAcc_succ, if_neg (not_le.mpr hcap)]
  -- the step function only grows its accumulator
  have hstepmono : ∀ (b : List String) (q : String), ∀ y ∈ b,
      y ∈ (if q ∉ b ∧ q ∈ g.nodeIds then walkAcc g nbrs m fuel q (b ++ [q]) else b) := by
    intro b q y hy
    split
    · exact walkAcc_mono g nbrs m fuel q (b ++ [q]) y (List.mem_append_left _ hy)
    · exact hy
  -- scan the neighbour list to the occurrence of `x`
  have hscan : ∀ (l : List String), x ∈ l → ∀ b : List String,
      x ∈ l.foldl
        (fun acc2 nid =>
          if nid ∉ acc2 ∧ nid ∈ g.nodeIds then
            walkAcc g nbrs m fuel nid (acc2 ++ [nid])
          else acc2)
        b := by
    intro l
    induction l with
    | nil => intro hx0; cases hx0
    | cons p rest ihl =>
      intro hx0 b
      rw [List.foldl_cons]
      rcases List.mem_cons.mp hx0 with heq | hrest
      · subst heq
        -- `x` enters (or already is in) the accumulator at this step
        have hxin : x ∈ (if x ∉ b ∧ x ∈ g.nodeIds then
            walkAcc g nbrs m fuel x (b ++ [x]) else b) := by
          split
          · exact walkAcc_mono g nbrs m fuel x (b ++ [x]) x
              (List.mem_append_right _ (List.mem_singleton_self x))
          · rename_i hcond
            rw [not_and] at hcond
            by_cases hxb : x ∈ b
            · exact hxb
            · exact absurd hxnode (hcond hxb)
        exact foldl_hold
          (P := fun b2 => x ∈ b2) _ rest (fun b2 q _ hb2 => hstepmono b2 q x hb2) _ hxin
      · exact ihl hrest _
  exact hscan (nbrs cid) hxnb acc

/-- Walk results consist of accumulated or existing nodes. -/
theorem walkAcc_nodes (g : DependencyGraph) (nbrs : String → List String) (m : Nat) :
    ∀ (fuel : Nat) (cid : String) (acc : List String),
      ∀ x ∈ walkAcc g nbrs m fuel cid acc, x ∈ acc ∨ x ∈ g.nodeIds := by
  intro fuel
  induction fuel with
  | zero =>
    intro cid acc x hx
    rw [walkAcc_zero] at hx
    exact Or.inl hx
  | succ fuel ih =>
    intro cid acc
    rw [walkAcc_succ]
    split
    · intro x hx
      exact Or.inl hx
    · apply foldl_hold (P := fun b => ∀ x ∈ b, x ∈ acc ∨ x ∈ g.nodeIds)
      · intro b p _ hb
        split
        · rename_i hcond
          intro x hx
          rcases ih p (b ++ [p]) x hx with h | h
          · rcases List.mem_append.mp h with h2 | h2
            · exact hb x h2
            · simp only [List.mem_singleton] at h2
              subst h2
              exact Or.inr hcond.2
          · exact Or.inr h
        · exact hb
      · intro x hx
        exact Or.inl hx

/-- A key present in the node map has a stored node. -/
theorem lookupNode_some_of_mem_keys :
    ∀ (nodes : List (String × CardNode)) (x : String),
      x ∈ nodes.map Prod.fst → ∃ n, DependencyGraph.lookupNode nodes x = some n := by
  intro nodes
  induction nodes with
  | nil =>
    intro x hx
    cases hx
  | cons kv rest ih =>
    obtain ⟨k, v⟩ := kv
    intro x hx
    by_cases hxk : x = k
    · exact ⟨v, by rw [DependencyGraph.lookupNode, if_pos hxk]⟩
    · simp only [List.map_cons, List.mem_cons] at hx
      rcases hx with h | h
      · exact absurd h hxk
      · obtain ⟨n, hn⟩ := ih x h
        exact ⟨n, by rw [DependencyGraph.lookupNode, if_neg hxk]; exact hn⟩

/-- A successful node lookup returns an entry of the map, keyed by the
queried id. -/
theorem lookupNode_mem :
    ∀ (nodes : List (String × CardNode)) (x : String) (n : CardNode),
      DependencyGraph.lookupNode nodes x = some n → (x, n) ∈ nodes := by
  intro nodes
  induction nodes with
  | nil =>
    intro x n h
    cases h
  | cons kv rest ih =>
    obtain ⟨k, v⟩ := kv
    intro x n h
    rw [DependencyGraph.lookupNode] at h
    by_cases hxk : x = k
    · rw [if_pos hxk] at h
      injection h with h
      subst h
      subst hxk
      exact List.mem_cons_self _ _
    · rw [if_neg hxk] at h
      exact List.mem_cons_of_mem _ (ih x n h)

/-- On a well-formed node map, resolving a list of existing ids to nodes
and projecting the ids back is the identity. -/
theorem map_id_filterMap_findNode (g : DependencyGraph) (hwf : g.WF) :
    ∀ l : List String, (∀ x ∈ l, x ∈ g.nodeIds) →
      (l.filterMap g.findNode).map CardNode.id = l := by
  intro l
  induction l with
  | nil => intro; simp
  | cons a rest ih =>
    intro hmem
    have ha : a ∈ g.nodeIds := hmem a (List.mem_cons_self a rest)
    obtain ⟨n, hn⟩ := lookupNode_some_of_mem_keys g.nodes a ha
    have hfn : g.findNode a = some n := hn
    have hid : n.id = a := hwf (a, n) (lookupNode_mem g.nodes a n hn)
    rw [show (a :: rest).filterMap g.findNode = n :: rest.filterMap g.findNode by
      simp [List.filterMap_cons, hfn]]
    rw [List.map_cons, hid, ih (fun x hx => hmem x (List.mem_cons_of_mem a hx))]

/-- The id lists of a `get_local_graph` result are exactly the walk
results. -/
theorem get_local_graph_ids (g : DependencyGraph) (hwf : g.WF) (card_id : String)
    (depth max_nodes : Nat) (r : LocalGraphResult)
    (h : get_local_graph g card_id depth max_nodes = some r) :
    r.prerequisites.map CardNode.id
        = walkAcc g (fun c => g.get_prerequisites c) max_nodes depth card_id []
      ∧ r.dependents.map CardNode.id
          = walkAcc g (fun c => g.get_dependents c) max_nodes depth card_id [] := by
  unfold get_local_graph at h
  by_cases hcard : card_id ∈ g.nodeIds
  · rw [if_pos hcard] at h
    cases hfind : g.findNode card_id with
    | none =>
      rw [hfind] at h
      cases h
    | some center =>
      rw [hfind] at h
      injection h with h
      subst h
      constructor
      · exact map_id_filterMap_findNode g hwf _
          (fun x hx => (walkAcc_nodes g _ _ depth card_id [] x hx).resolve_left
            (List.not_mem_nil x))
      · exact map_id_filterMap_findNode g hwf _
          (fun x hx => (walkAcc_nodes g _ _ depth card_id [] x hx).resolve_left
            (List.not_mem_nil x))
  · rw [if_neg hcard] at h
    cases h

/-- C7 (amended): for a well-formed graph, a centre in the graph and
`max_nodes ≥ 1`, `get_local_graph` at `depth = 1` returns exactly the
direct existing prerequisites (resp. dependents) of the centre and no
transitive ones; at `depth = 2` it still contains every direct
prerequisite/dependent and nothing beyond two hops — second-hop inclusion
is best-effort only (the soft `max_nodes` cap and revisitation can omit
it; see the counterexample). -/
theorem c7_local_graph_depth_bounds (g : DependencyGraph) (hwf : g.WF) (card_id : String)
    (max_nodes : Nat) (hm : 1 ≤ max_nodes) :
    (∀ r, get_local_graph g card_id 1 max_nodes = some r →
      (∀ x, x ∈ r.prerequisites.map CardNode.id
          ↔ x ∈ validDeps g (fun c => g.get_prerequisites c) card_id)
        ∧ (∀ x, x ∈ r.dependents.map CardNode.id
            ↔ x ∈ validDeps g (fun c => g.get_dependents c) card_id))
      ∧ (∀ r, get_local_graph g card_id 2 max_nodes = some r →
          (∀ x ∈ validDeps g (fun c => g.get_prerequisites c) card_id,
              x ∈ r.prerequisites.map CardNode.id)
            ∧ (∀ x ∈ r.prerequisites.map CardNode.id,
                x ∈ validDeps g (fun c => g.get_prerequisites c) card_id
                  ∨ ∃ p ∈ validDeps g (fun c => g.get_prerequisites c) card_id,
                      x ∈ validDeps g (fun c => g.get_prerequisites c) p)
            ∧ (∀ x ∈ validDeps g (fun c => g.get_dependents c) card_id,
                x ∈ r.dependents.map CardNode.id)
            ∧ (∀ x ∈ r.dependents.map CardNode.id,
                x ∈ validDeps g (fun c => g.get_dependents c) card_id
                  ∨ ∃ p ∈ validDeps g (fun c => g.get_dependents c) card_id,
                      x ∈ validDeps g (fun c => g.get_dependents c) p)) := by
  have hcap : ([] : List String).length < max_nodes := by
    simp
    omega
  constructor
  · intro r hr
    obtain ⟨hp, hd⟩ := get_local_graph_ids g hwf card_id 1 max_nodes r hr
    constructor
    · intro x
      rw [hp]
      constructor
      · intro hx
        exact (walkAcc_one_sound g _ max_nodes card_id [] x hx).resolve_left
          (List.not_mem_nil x)
      · intro hx
        exact walkAcc_complete g _ max_nodes 0 card_id [] hcap x hx
    · intro x
      rw [hd]
      constructor
      · intro hx
        exact (walkAcc_one_sound g _ max_nodes card_id [] x hx).resolve_left
          (List.not_mem_nil x)
      · intro hx
        exact walkAcc_complete g _ max_nodes 0 card_id [] hcap x hx
  · intro r hr
    obtain ⟨hp, hd⟩ := get_local_graph_ids g hwf card_id 2 max_nodes r hr
    refine ⟨?_, ?_, ?_, ?_⟩
    · intro x hx
      rw [hp]
      exact walkAcc_complete g _ max_nodes 1 card_id [] hcap x hx
    · intro x hx
      rw [hp] at hx
      exact (walkAcc_two_sound g _ max_nodes card_id [] x hx).resolve_left
        (List.not_mem_nil x)
    · intro x hx
      rw [hd]
      exact walkAcc_complete g _ max_nodes 1 card_id [] hcap x hx
    · intro x hx
      rw [hd] at hx
      exact (walkAcc_two_sound g _ max_nodes card_id [] x hx).resolve_left
        (List.not_mem_nil x)

/-- Counterexample to C7 as stated.  First failure: with `max_nodes = 0`
(the cap is part of the claim) and `depth = 1`, the returned prerequisite
set is empty although the centre has direct prerequisites.  Second
failure: at `depth = 2` with an ample cap (`150`, the code default), the
second-hop prerequisite `w` of the direct prerequisite `p` is omitted —
`p` was first reached through `q` at the depth limit, so the walk never
expands it — even though the soft cap is nowhere near binding. -/
theorem c7_counterexample :
    ((get_local_graph gRevisit "x" 1 0).map (fun r => r.prerequisites.map CardNode.id)
        = some []
      ∧ validDeps gRevisit (fun c => gRevisit.get_prerequisites c) "x" ≠ [])
      ∧ ((get_local_graph gRevisit "x" 2 150).map (fun r => r.prerequisites.map CardNode.id)
          = some ["q", "p"]
        ∧ "p" ∈ validDeps gRevisit (fun c => gRevisit.get_prerequisites c) "x"
        ∧ "w" ∈ validDeps gRevisit (fun c => gRevisit.get_prerequisites c) "p"
        ∧ "w" ∉ (["q", "p"] : List String)
        ∧ (["q", "p"] : List String).length < 150) := by
  refine ⟨⟨?_, ?_⟩, ?_, ?_, ?_, ?_, ?_⟩ <;> decide

/-- Witness for the amended C7 on the revisit graph: at `depth = 1` the
prerequisite ids are exactly the direct existing prerequisites. -/
theorem c7_local_graph_depth_bounds_witness :
    gRevisit.WF ∧ "x" ∈ gRevisit.nodeIds ∧ 1 ≤ 150
      ∧ (∀ r, get_local_graph gRevisit "x" 1 150 = some r →
          (∀ x, x ∈ r.prerequisites.map CardNode.id
              ↔ x ∈ validDeps gRevisit (fun c => gRevisit.get_prerequisites c) "x")
            ∧ (∀ x, x ∈ r.dependents.map CardNode.id
                ↔ x ∈ validDeps gRevisit (fun c => gRevisit.get_dependents c) "x")) :=
  ⟨by decide, by decide, by decide,
    (c7_local_graph_depth_bounds gRevisit (by decide) "x" 150 (by decide)).1⟩

end Arete
